import Mathlib

/-!
# Verification of the Nucleation voxel-schematic library

Shallow embedding of the block-storage core of the repository
(`src/bounding_box.rs`, `src/block_state.rs`, `src/region.rs`,
`src/formats/schematic.rs`) and proofs about the claims C1-C10.

Modeling conventions:
* Rust `i32` values are modeled as unbounded `Int`; the source's Euclidean
  division (`div_euclid` / `rem_euclid`) is `Int.ediv` / `Int.emod`.
* Rust `usize`/`u64` quantities are modeled as `Nat`.  Casts `as usize` of an
  `i32` appear only where the source applies them to non-negative values in the
  states the claims quantify over; they are modeled by `Int.toNat`.
* The `as u16` cast of a palette index is modeled by `% 65536`, which is its
  exact semantics in Rust.
* Bit manipulation on `i64`/`u64` words is modeled on `Nat` with an explicit
  `% 2 ^ 64` truncation exactly where the source's 64-bit arithmetic discards
  high bits.
* Hash maps (`hashbrown::HashMap`) are modeled as association lists.  For the
  palette lookup map (insert-only, observed only through `get`) insertion is
  modeled as `cons`, whose first-match lookup agrees with hash-map lookup.  For
  the chunk map (which is also iterated and supports removal) insertion
  replaces the unique binding of the key and removal filters it out.
-/

namespace Nucleation

/-- Block state (src/block_state.rs): identifier plus property list.  Equality
of the model is structural; no claim below depends on the property-order
insensitivity of the source's `Eq`/`Hash` implementations (every concrete block
used in the claims has an empty property list). -/
structure BlockState where
  name : String
  properties : List (String × String)
deriving DecidableEq, Repr

/-- `BlockState::air()` -/
def BlockState.air : BlockState := ⟨"minecraft:air", []⟩

/-- Axis-aligned inclusive integer box (src/bounding_box.rs). -/
structure BoundingBox where
  min : Int × Int × Int
  max : Int × Int × Int
deriving DecidableEq, Repr

namespace BoundingBox

/-- `BoundingBox::new` -/
def new (min max : Int × Int × Int) : BoundingBox := ⟨min, max⟩

/-- `BoundingBox::contains` -/
def contains (b : BoundingBox) (point : Int × Int × Int) : Prop :=
  point.1 ≥ b.min.1 ∧ point.1 ≤ b.max.1 ∧
    point.2.1 ≥ b.min.2.1 ∧ point.2.1 ≤ b.max.2.1 ∧
    point.2.2 ≥ b.min.2.2 ∧ point.2.2 ≤ b.max.2.2

instance (b : BoundingBox) (p : Int × Int × Int) : Decidable (b.contains p) := by
  unfold contains; infer_instance

/-- `BoundingBox::union` -/
def union (b other : BoundingBox) : BoundingBox where
  min := (Min.min b.min.1 other.min.1, Min.min b.min.2.1 other.min.2.1,
    Min.min b.min.2.2 other.min.2.2)
  max := (Max.max b.max.1 other.max.1, Max.max b.max.2.1 other.max.2.1,
    Max.max b.max.2.2 other.max.2.2)

/-- `BoundingBox::get_dimensions` -/
def get_dimensions (b : BoundingBox) : Int × Int × Int :=
  (b.max.1 - b.min.1 + 1, b.max.2.1 - b.min.2.1 + 1, b.max.2.2 - b.min.2.2 + 1)

/-- `BoundingBox::coords_to_index`.  The source computes
`(dx + dz * width + dy * width * length) as usize`; the claims apply it only to
in-box coordinates, where the value cast is non-negative, so the cast is
`Int.toNat`. -/
def coords_to_index (b : BoundingBox) (x y z : Int) : Nat :=
  let d := b.get_dimensions
  ((x - b.min.1) + (z - b.min.2.2) * d.1 + (y - b.min.2.1) * d.1 * d.2.2).toNat

/-- `BoundingBox::index_to_coords`.  `width as usize` and
`(width * length) as usize` are `Int.toNat` images (non-negative for the
non-empty boxes the claims quantify over). -/
def index_to_coords (b : BoundingBox) (index : Nat) : Int × Int × Int :=
  let d := b.get_dimensions
  let w := d.1.toNat
  let l := d.2.2.toNat
  let wl := (d.1 * d.2.2).toNat
  (b.min.1 + (index % w : Nat), b.min.2.1 + (index / wl : Nat),
    b.min.2.2 + ((index / w) % l : Nat))

/-- `BoundingBox::to_position_and_size` -/
def to_position_and_size (b : BoundingBox) : (Int × Int × Int) × (Int × Int × Int) :=
  (b.min, b.get_dimensions)

/-- `BoundingBox::from_position_and_size` -/
def from_position_and_size (position size : Int × Int × Int) : BoundingBox :=
  let position2 := (position.1 + size.1, position.2.1 + size.2.1, position.2.2 + size.2.2)
  let offset_min := (-(Min.min size.1.sign 0), -(Min.min size.2.1.sign 0),
    -(Min.min size.2.2.sign 0))
  let offset_max := (-(Max.max size.1.sign 0), -(Max.max size.2.1.sign 0),
    -(Max.max size.2.2.sign 0))
  new
    (Min.min position.1 position2.1 + offset_min.1,
      Min.min position.2.1 position2.2.1 + offset_min.2.1,
      Min.min position.2.2 position2.2.2 + offset_min.2.2)
    (Max.max position.1 position2.1 + offset_max.1,
      Max.max position.2.1 position2.2.1 + offset_max.2.1,
      Max.max position.2.2 position2.2.2 + offset_max.2.2)

/-- `BoundingBox::volume` (`width as u64 * height as u64 * length as u64`; for
the normalized boxes of the claims all three dimensions are positive, so the
casts are `Int.toNat`). -/
def volume (b : BoundingBox) : Nat :=
  let d := b.get_dimensions
  d.1.toNat * d.2.1.toNat * d.2.2.toNat

/-- The coordinate list produced by `BoundingBox::iter_coords`, x fastest, then
z, then y (for a box with all dimensions positive the iterator yields exactly
these triples in this order). -/
def boxCoords (b : BoundingBox) : List (Int × Int × Int) :=
  (List.range b.get_dimensions.2.1.toNat).flatMap fun dy : Nat =>
    (List.range b.get_dimensions.2.2.toNat).flatMap fun dz : Nat =>
      (List.range b.get_dimensions.1.toNat).map fun dx : Nat =>
        (b.min.1 + (dx : Int), b.min.2.1 + (dy : Int), b.min.2.2 + (dz : Int))

end BoundingBox

/-! ## C7: coordinate bijection of `BoundingBox` -/

/-- Helper identity for the canonical flat index decomposition. -/
theorem mod_div_recompose (i w l : Nat) :
    i % w + (i / w % l) * w + i / (w * l) * (w * l) = i := by
  rw [← Nat.div_div_eq_div_mul]
  calc i % w + (i / w % l) * w + i / w / l * (w * l)
      = i % w + w * (i / w % l + l * (i / w / l)) := by ring
    _ = i % w + w * (i / w) := by rw [Nat.mod_add_div]
    _ = i := Nat.mod_add_div i w

/-- C7.  For every non-empty bounding box (each `min` component at most the
corresponding `max` component) and every `i < volume`,
`coords_to_index (index_to_coords i) = i`, and `index_to_coords i` lies inside
`[min, max]`. -/
theorem C7_coords_index_bijection (b : BoundingBox)
    (hx : b.min.1 ≤ b.max.1) (hy : b.min.2.1 ≤ b.max.2.1) (hz : b.min.2.2 ≤ b.max.2.2)
    (i : Nat) (hi : i < b.volume) :
    (b.coords_to_index (b.index_to_coords i).1 (b.index_to_coords i).2.1
      (b.index_to_coords i).2.2 = i) ∧
    b.contains (b.index_to_coords i) := by
  obtain ⟨⟨mx, my, mz⟩, ⟨Mx, My, Mz⟩⟩ := b
  simp only [BoundingBox.get_dimensions, BoundingBox.volume, BoundingBox.index_to_coords,
    BoundingBox.coords_to_index, BoundingBox.contains] at *
  set w := (Mx - mx + 1).toNat with hw
  set h := (My - my + 1).toNat with hh
  set l := (Mz - mz + 1).toNat with hl
  have hwpos : 0 < w := by omega
  have hhpos : 0 < h := by omega
  have hlpos : 0 < l := by omega
  have hWcast : ((w : Int)) = Mx - mx + 1 := by omega
  have hLcast : ((l : Int)) = Mz - mz + 1 := by omega
  have hwl : ((Mx - mx + 1) * (Mz - mz + 1)).toNat = w * l := by
    rw [← hWcast, ← hLcast, ← Int.natCast_mul, Int.toNat_natCast]
  rw [hwl]
  have hdx : i % w < w := Nat.mod_lt _ hwpos
  have hdz : i / w % l < l := Nat.mod_lt _ hlpos
  have hdy : i / (w * l) < h := by
    rw [Nat.div_lt_iff_lt_mul (Nat.mul_pos hwpos hlpos)]
    calc i < w * h * l := hi
      _ = h * (w * l) := by ring
  constructor
  · have harg : mx + (i % w : Nat) - mx + (mz + ((i / w) % l : Nat) - mz) * (Mx - mx + 1) +
        (my + (i / (w * l) : Nat) - my) * (Mx - mx + 1) * (Mz - mz + 1) =
        ((i % w + (i / w % l) * w + i / (w * l) * (w * l) : Nat) : Int) := by
      rw [← hWcast, ← hLcast]; push_cast; ring
    rw [harg, mod_div_recompose, Int.toNat_natCast]
  · have hHcast : ((h : Int)) = My - my + 1 := by omega
    have b1 : (0 : Int) ≤ ((i % w : Nat) : Int) := Int.natCast_nonneg _
    have b2 : ((i % w : Nat) : Int) < (w : Int) := by exact_mod_cast hdx
    have b3 : (0 : Int) ≤ ((i / (w * l) : Nat) : Int) := Int.natCast_nonneg _
    have b4 : ((i / (w * l) : Nat) : Int) < (h : Int) := by exact_mod_cast hdy
    have b5 : (0 : Int) ≤ ((i / w % l : Nat) : Int) := Int.natCast_nonneg _
    have b6 : ((i / w % l : Nat) : Int) < (l : Int) := by exact_mod_cast hdz
    refine ⟨?_, ?_, ?_, ?_, ?_, ?_⟩ <;> omega

/-- Witness for C7 at a concrete box and index. -/
theorem C7_witness :
    ((BoundingBox.new (0, 0, 0) (2, 2, 2)).min.1 ≤ (BoundingBox.new (0, 0, 0) (2, 2, 2)).max.1) ∧
    ((25 : Nat) < (BoundingBox.new (0, 0, 0) (2, 2, 2)).volume) ∧
    ((BoundingBox.new (0, 0, 0) (2, 2, 2)).coords_to_index
      ((BoundingBox.new (0, 0, 0) (2, 2, 2)).index_to_coords 25).1
      ((BoundingBox.new (0, 0, 0) (2, 2, 2)).index_to_coords 25).2.1
      ((BoundingBox.new (0, 0, 0) (2, 2, 2)).index_to_coords 25).2.2 = 25) ∧
    (BoundingBox.new (0, 0, 0) (2, 2, 2)).contains
      ((BoundingBox.new (0, 0, 0) (2, 2, 2)).index_to_coords 25) :=
  ⟨by decide, by decide,
    (C7_coords_index_bijection (BoundingBox.new (0, 0, 0) (2, 2, 2))
      (by decide) (by decide) (by decide) 25 (by decide)).1,
    (C7_coords_index_bijection (BoundingBox.new (0, 0, 0) (2, 2, 2))
      (by decide) (by decide) (by decide) 25 (by decide)).2⟩

/-! ## C9: `from_position_and_size` normalization -/

/-- C9.  `from_position_and_size` normalizes each axis independently: a
positive size component `s` at position `p` gives the interval `[p, p+s-1]`, a
negative one gives `[p+s+1, p]`; in particular
`from_position_and_size((1,0,1),(-2,2,-2))` has `min=(0,0,0)`, `max=(1,1,1)`. -/
theorem C9_from_position_and_size_normalizes (p s : Int × Int × Int) :
    (0 < s.1 → (BoundingBox.from_position_and_size p s).min.1 = p.1 ∧
      (BoundingBox.from_position_and_size p s).max.1 = p.1 + s.1 - 1) ∧
    (s.1 < 0 → (BoundingBox.from_position_and_size p s).min.1 = p.1 + s.1 + 1 ∧
      (BoundingBox.from_position_and_size p s).max.1 = p.1) ∧
    (0 < s.2.1 → (BoundingBox.from_position_and_size p s).min.2.1 = p.2.1 ∧
      (BoundingBox.from_position_and_size p s).max.2.1 = p.2.1 + s.2.1 - 1) ∧
    (s.2.1 < 0 → (BoundingBox.from_position_and_size p s).min.2.1 = p.2.1 + s.2.1 + 1 ∧
      (BoundingBox.from_position_and_size p s).max.2.1 = p.2.1) ∧
    (0 < s.2.2 → (BoundingBox.from_position_and_size p s).min.2.2 = p.2.2 ∧
      (BoundingBox.from_position_and_size p s).max.2.2 = p.2.2 + s.2.2 - 1) ∧
    (s.2.2 < 0 → (BoundingBox.from_position_and_size p s).min.2.2 = p.2.2 + s.2.2 + 1 ∧
      (BoundingBox.from_position_and_size p s).max.2.2 = p.2.2) ∧
    BoundingBox.from_position_and_size (1, 0, 1) (-2, 2, -2) =
      BoundingBox.new (0, 0, 0) (1, 1, 1) := by
  simp only [BoundingBox.from_position_and_size, BoundingBox.new]
  refine ⟨?_, ?_, ?_, ?_, ?_, ?_, by decide⟩ <;> intro hs
  · rw [Int.sign_eq_one_of_pos hs]; constructor <;> simp <;> omega
  · rw [Int.sign_eq_neg_one_of_neg hs]; constructor <;> simp <;> omega
  · rw [Int.sign_eq_one_of_pos hs]; constructor <;> simp <;> omega
  · rw [Int.sign_eq_neg_one_of_neg hs]; constructor <;> simp <;> omega
  · rw [Int.sign_eq_one_of_pos hs]; constructor <;> simp <;> omega
  · rw [Int.sign_eq_neg_one_of_neg hs]; constructor <;> simp <;> omega

/-- Witness for C9 at concrete position and size. -/
theorem C9_witness :
    (0 : Int) < 3 ∧ (-4 : Int) < 0 ∧
    (BoundingBox.from_position_and_size (5, 7, 2) (3, -4, 1)).min.1 = 5 ∧
    (BoundingBox.from_position_and_size (5, 7, 2) (3, -4, 1)).max.1 = 5 + 3 - 1 ∧
    (BoundingBox.from_position_and_size (5, 7, 2) (3, -4, 1)).min.2.1 = 7 + -4 + 1 ∧
    (BoundingBox.from_position_and_size (5, 7, 2) (3, -4, 1)).max.2.1 = 7 := by
  have h := C9_from_position_and_size_normalizes (5, 7, 2) (3, -4, 1)
  exact ⟨by decide, by decide, (h.1 (by decide)).1, (h.1 (by decide)).2,
    (h.2.2.2.1 (by decide)).1, (h.2.2.2.1 (by decide)).2⟩

/-! ## Varint codec (src/formats/schematic.rs) and C8 -/

/-- `encode_varint`: unsigned LEB128 encoding of a `u32` value.  Each step
emits the low 7 bits, with bit 7 set when more bytes follow; the loop is
do-while, so `0` encodes to `[0]`. -/
def encode_varint (value : Nat) : List Nat :=
  if h : value / 128 = 0 then [value % 128]
  else (value % 128 + 128) :: encode_varint (value / 128)
termination_by value
decreasing_by exact Nat.div_lt_self (by omega) (by omega)

/-- `decode_varint`'s loop: accumulate 7-bit groups into a `u32`
(`result |= low7 << shift`, with the `u32` shift keeping the low 32 bits), stop
at a byte without the continuation bit, fail with "Varint is too long" once
`shift` reaches 32, and fail at end of input mid-varint (`read_exact` error). -/
def decode_varint_loop : List Nat → Nat → Nat → Option Nat
  | [], _, _ => none
  | b :: rest, shift, acc =>
    if b &&& 128 = 0 then some (acc ||| ((b &&& 127) <<< shift) % 2 ^ 32)
    else if 32 ≤ shift + 7 then none
    else decode_varint_loop rest (shift + 7) (acc ||| ((b &&& 127) <<< shift) % 2 ^ 32)

/-- `decode_varint` -/
def decode_varint (bytes : List Nat) : Option Nat := decode_varint_loop bytes 0 0

theorem and_127_eq_mod (b : Nat) : b &&& 127 = b % 128 := by
  have h : (127 : Nat) = 2 ^ 7 - 1 := by norm_num
  have h2 : (128 : Nat) = 2 ^ 7 := by norm_num
  rw [h, h2, Nat.and_pow_two_sub_one_eq_mod]

theorem and_128_of_lt {v : Nat} (h : v < 128) : v &&& 128 = 0 := by
  have h2 : (128 : Nat) = 2 ^ 7 := by norm_num
  rw [h2, Nat.and_two_pow, Nat.testBit_lt_two_pow (by omega : v < 2 ^ 7)]
  simp

theorem add_128_and_128 {v : Nat} (h : v < 128) : (v + 128) &&& 128 = 128 := by
  have h2 : (128 : Nat) = 2 ^ 7 := by norm_num
  rw [h2, Nat.and_two_pow, Nat.testBit_to_div_mod]
  have hd : (v + 2 ^ 7) / 2 ^ 7 % 2 = 1 := by
    have hp : (2 : Nat) ^ 7 = 128 := by norm_num
    rw [hp]; omega
  simp only [hd]
  norm_num

/-- Bitwise or of a value below `2 ^ s` with a multiple of `2 ^ s` is
addition. -/
theorem lor_shift_eq_add (acc x s : Nat) (h : acc < 2 ^ s) :
    acc ||| x <<< s = acc + x * 2 ^ s := by
  calc acc ||| x <<< s = x * 2 ^ s ||| acc := by rw [Nat.shiftLeft_eq, Nat.lor_comm]
    _ = 2 ^ s * x ||| acc := by rw [Nat.mul_comm]
    _ = 2 ^ s * x + acc := (Nat.mul_add_lt_is_or h x).symm
    _ = acc + x * 2 ^ s := by ring

/-- Decoding an encoded varint from any loop state accumulates exactly the
remaining value. -/
theorem decode_varint_loop_encode (v : Nat) :
    ∀ shift acc, shift ≤ 31 → acc < 2 ^ shift → v < 2 ^ (32 - shift) →
      decode_varint_loop (encode_varint v) shift acc = some (acc + v * 2 ^ shift) := by
  induction v using Nat.strong_induction_on with
  | _ v ih =>
    intro shift acc hs ha hv
    rw [encode_varint]
    by_cases h : v / 128 = 0
    · have hvlt : v < 128 := by omega
      rw [dif_pos h, Nat.mod_eq_of_lt hvlt]
      have hmod : v &&& 127 = v := by rw [and_127_eq_mod]; omega
      have hbound : v * 2 ^ shift < 2 ^ 32 := by
        calc v * 2 ^ shift < 2 ^ (32 - shift) * 2 ^ shift :=
              mul_lt_mul_of_pos_right hv (pow_pos (by norm_num) shift)
          _ = 2 ^ 32 := by rw [← pow_add]; congr 1; omega
      simp only [decode_varint_loop, and_128_of_lt hvlt, eq_self_iff_true, if_true]
      rw [hmod, Nat.mod_eq_of_lt (show v <<< shift < 2 ^ 32 by
        rwa [Nat.shiftLeft_eq]), lor_shift_eq_add _ _ _ ha]
    · have hv128 : 128 ≤ v := by omega
      have hshift25 : shift < 25 := by
        by_contra hc
        have h1 : 32 - shift ≤ 7 := by omega
        have h2 : (2 : Nat) ^ (32 - shift) ≤ 2 ^ 7 :=
          Nat.pow_le_pow_right (by norm_num) h1
        norm_num at h2
        omega
      have hm : v % 128 < 128 := Nat.mod_lt _ (by norm_num)
      rw [dif_neg h]
      simp only [decode_varint_loop, add_128_and_128 hm]
      rw [if_neg (by norm_num : ¬(128 : Nat) = 0),
        if_neg (by omega : ¬32 ≤ shift + 7)]
      have hand : (v % 128 + 128) &&& 127 = v % 128 := by
        rw [and_127_eq_mod]; omega
      rw [hand]
      have hshlt : (v % 128) <<< shift < 2 ^ 32 := by
        rw [Nat.shiftLeft_eq]
        calc (v % 128) * 2 ^ shift < 128 * 2 ^ shift :=
              mul_lt_mul_of_pos_right hm (pow_pos (by norm_num) shift)
          _ = 2 ^ (shift + 7) := by rw [pow_add]; ring
          _ ≤ 2 ^ 32 := Nat.pow_le_pow_right (by norm_num) (by omega)
      rw [Nat.mod_eq_of_lt hshlt, lor_shift_eq_add _ _ _ ha]
      have ha2 : acc + (v % 128) * 2 ^ shift < 2 ^ (shift + 7) := by
        have h127 : (v % 128) * 2 ^ shift ≤ 127 * 2 ^ shift :=
          mul_le_mul_right' (by omega) (2 ^ shift)
        have hp : (2 : Nat) ^ (shift + 7) = 128 * 2 ^ shift := by rw [pow_add]; ring
        omega
      have hv2 : v / 128 < 2 ^ (32 - (shift + 7)) := by
        rw [Nat.div_lt_iff_lt_mul (by norm_num : (0 : Nat) < 128)]
        have hpw : (2 : Nat) ^ (32 - (shift + 7)) * 128 = 2 ^ (32 - shift) := by
          rw [(by norm_num : (128 : Nat) = 2 ^ 7), ← pow_add]
          congr 1
          omega
        omega
      rw [ih (v / 128) (Nat.div_lt_self (by omega) (by norm_num)) (shift + 7)
        _ (by omega) ha2 hv2]
      congr 1
      have hp : (2 : Nat) ^ (shift + 7) = 2 ^ shift * 128 := by rw [pow_add]; ring
      have hsplit : v % 128 + 128 * (v / 128) = v := Nat.mod_add_div v 128
      calc acc + (v % 128) * 2 ^ shift + v / 128 * 2 ^ (shift + 7)
          = acc + (v % 128 + 128 * (v / 128)) * 2 ^ shift := by rw [hp]; ring
        _ = acc + v * 2 ^ shift := by rw [hsplit]

/-- C8.  For every `u32` value `v`, `decode_varint (encode_varint v) = v`;
moreover `encode_varint 0 = [0x00]`, `encode_varint 128 = [0x80, 0x01]` and
`encode_varint 4294967295 = [0xFF, 0xFF, 0xFF, 0xFF, 0x0F]`. -/
theorem C8_varint_roundtrip :
    (∀ v : Nat, v < 2 ^ 32 → decode_varint (encode_varint v) = some v) ∧
    encode_varint 0 = [0x00] ∧ encode_varint 128 = [0x80, 0x01] ∧
    encode_varint 4294967295 = [0xFF, 0xFF, 0xFF, 0xFF, 0x0F] := by
  refine ⟨fun v hv => ?_, ?_, ?_, ?_⟩
  · have h := decode_varint_loop_encode v 0 0 (by norm_num) (by norm_num)
      (by simpa using hv)
    simpa [decode_varint] using h
  · rw [encode_varint]; norm_num
  · rw [encode_varint, encode_varint]; norm_num
  · rw [encode_varint, encode_varint, encode_varint, encode_varint, encode_varint]
    norm_num

/-- Witness for C8 at the concrete value 300. -/
theorem C8_witness :
    (300 : Nat) < 2 ^ 32 ∧ decode_varint (encode_varint 300) = some 300 :=
  ⟨by decide, C8_varint_roundtrip.1 300 (by decide)⟩

/-! ## `parse_block_data` (src/formats/schematic.rs) and C6 -/

/-- One varint read of `parse_block_data`'s inner loop, limited to the byte
slice of the current batch: `ok none` when the slice ends mid-varint (the
source then discards the partial value, having consumed the whole slice),
`ok (some (value, rest))` on a completed varint, and the "Varint is too long"
error when `shift` reaches 32 after a continuation byte. -/
def read_varint_batch : List Nat → Nat → Nat → Except String (Option (Nat × List Nat))
  | [], _, _ => .ok none
  | b :: rest, shift, acc =>
    if b &&& 128 = 0 then .ok (some (acc ||| ((b &&& 127) <<< shift) % 2 ^ 32, rest))
    else if 32 ≤ shift + 7 then .error "Varint is too long"
    else read_varint_batch rest (shift + 7) (acc ||| ((b &&& 127) <<< shift) % 2 ^ 32)

theorem read_varint_batch_rest_lt (bs : List Nat) :
    ∀ shift acc v rest, read_varint_batch bs shift acc = .ok (some (v, rest)) →
      rest.length < bs.length := by
  induction bs with
  | nil => intro shift acc v rest h; simp [read_varint_batch] at h
  | cons b t ih =>
    intro shift acc v rest h
    simp only [read_varint_batch] at h
    by_cases hb : b &&& 128 = 0
    · rw [if_pos hb] at h
      simp only [Except.ok.injEq, Option.some.injEq, Prod.mk.injEq] at h
      simp [← h.2]
    · rw [if_neg hb] at h
      by_cases hsh : 32 ≤ shift + 7
      · rw [if_pos hsh] at h; simp at h
      · rw [if_neg hsh] at h
        exact Nat.lt_trans (ih _ _ _ _ h) (by simp)

/-- The `while pos < current_batch_size && decoded_count < batch_size` loop of
`parse_block_data`, acting on the current batch slice, with the remaining
per-batch value allowance (1024 at batch start): returns the values decoded
from the slice and the number of bytes consumed (the final `pos`). -/
def batch_loop : List Nat → Nat → Except String (List Nat × Nat)
  | _, 0 => .ok ([], 0)
  | bs, allowance + 1 =>
    match read_varint_batch bs 0 0 with
    | .error e => .error e
    | .ok none => .ok ([], bs.length)
    | .ok (some (v, rest)) =>
      match batch_loop rest allowance with
      | .error e => .error e
      | .ok (vs, c) => .ok (v :: vs, bs.length - rest.length + c)

theorem batch_loop_consumed_pos (a : Nat) (bs : List Nat) (vs : List Nat) (c : Nat)
    (ha : 0 < a) (hbs : bs ≠ []) (h : batch_loop bs a = .ok (vs, c)) : 0 < c := by
  cases a with
  | zero => omega
  | succ n =>
    cases hr : read_varint_batch bs 0 0 with
    | error e => simp only [batch_loop, hr] at h; simp at h
    | ok o =>
      cases o with
      | none =>
        simp only [batch_loop, hr, Except.ok.injEq, Prod.mk.injEq] at h
        have := List.length_pos.mpr hbs
        omega
      | some p =>
        obtain ⟨v, rest⟩ := p
        have hlt := read_varint_batch_rest_lt bs 0 0 v rest hr
        cases hb : batch_loop rest n with
        | error e => simp only [batch_loop, hr, hb] at h; simp at h
        | ok pr =>
          obtain ⟨vs2, c2⟩ := pr
          simp only [batch_loop, hr, hb, Except.ok.injEq, Prod.mk.injEq] at h
          omega

/-- The outer decoding loop of `parse_block_data` (`while !block_data_u8.is_empty()
&& block_data.len() < expected_length`), processing batches of at most 1024
bytes and at most 1024 values. -/
def parse_loop (expected : Nat) (bytes acc : List Nat) : Except String (List Nat) :=
  if h : bytes = [] ∨ expected ≤ acc.length then .ok acc
  else
    match hbl : batch_loop (bytes.take (Min.min 1024 bytes.length)) 1024 with
    | .error e => .error e
    | .ok (vs, consumed) => parse_loop expected (bytes.drop consumed) (acc ++ vs)
termination_by bytes.length
decreasing_by
  have hbs : bytes ≠ [] := fun hc => h (Or.inl hc)
  have hpos : 0 < bytes.length := List.length_pos.mpr hbs
  have htk : bytes.take (Min.min 1024 bytes.length) ≠ [] := by
    simp only [ne_eq, List.take_eq_nil_iff]
    push_neg
    constructor
    · omega
    · exact hbs
  have hc := batch_loop_consumed_pos 1024 _ vs consumed (by norm_num) htk hbl
  simp only [List.length_drop]
  omega

/-- `parse_block_data`: batched LEB128 decoding of the `BlockData` byte array,
followed by the final length check against `Width*Height*Length`. -/
def parse_block_data (bytes : List Nat) (width height length : Nat) :
    Except String (List Nat) :=
  match parse_loop (width * height * length) bytes [] with
  | .error e => .error e
  | .ok block_data =>
    if block_data.length ≠ width * height * length then
      .error "Block data length mismatch"
    else .ok block_data

theorem read_varint_one (rest : List Nat) :
    read_varint_batch (1 :: rest) 0 0 = .ok (some (1, rest)) := rfl

/-- On a slice of single-byte values `1` the batch loop decodes
`min n 1024` values. -/
theorem batch_loop_replicate_one (a : Nat) :
    ∀ n, batch_loop (List.replicate n 1) a =
      .ok (List.replicate (Min.min n a) 1, Min.min n a) := by
  induction a with
  | zero => intro n; simp [batch_loop]
  | succ k ih =>
    intro n
    cases n with
    | zero => simp [batch_loop, read_varint_batch]
    | succ m =>
      rw [List.replicate_succ]
      simp only [batch_loop, read_varint_one, ih m]
      have hmin : Min.min (m + 1) (k + 1) = Min.min m k + 1 := Nat.succ_min_succ m k
      rw [hmin, List.replicate_succ]
      simp only [List.length_cons, List.length_replicate, Except.ok.injEq, Prod.mk.injEq]
      exact ⟨trivial, by omega⟩

theorem parse_loop_step (expected : Nat) (bytes acc : List Nat) (vs : List Nat)
    (c : Nat) (hne : ¬(bytes = [] ∨ expected ≤ acc.length))
    (hb : batch_loop (bytes.take (Min.min 1024 bytes.length)) 1024 = .ok (vs, c)) :
    parse_loop expected bytes acc = parse_loop expected (bytes.drop c) (acc ++ vs) := by
  rw [parse_loop, dif_neg hne]
  split
  · rename_i e heq
    rw [hb] at heq
    cases heq
  · rename_i vs2 c2 heq
    rw [hb] at heq
    simp only [Except.ok.injEq, Prod.mk.injEq] at heq
    rw [heq.1, heq.2]

theorem parse_loop_done (expected : Nat) (bytes acc : List Nat)
    (h : bytes = [] ∨ expected ≤ acc.length) :
    parse_loop expected bytes acc = .ok acc := by
  rw [parse_loop, dif_pos h]

theorem parse_loop_replicate_eval :
    parse_loop 1024 (List.replicate 1025 1) [] = .ok (List.replicate 1024 1) := by
  have h1 : batch_loop ((List.replicate 1025 1).take
      (Min.min 1024 (List.replicate 1025 1).length)) 1024 =
      .ok (List.replicate 1024 1, 1024) := by
    rw [List.length_replicate, (by decide : Min.min 1024 (1025 : Nat) = 1024),
      List.take_replicate, (by decide : Min.min 1024 (1025 : Nat) = 1024),
      batch_loop_replicate_one, (by decide : Min.min 1024 (1024 : Nat) = 1024)]
  rw [parse_loop_step 1024 _ [] _ _ (by simp) h1]
  rw [(by rw [List.drop_replicate] : (List.replicate 1025 1).drop 1024 =
    List.replicate (1025 - 1024) 1)]
  rw [parse_loop_done 1024 _ _ (Or.inr (by
    rw [List.nil_append, List.length_replicate]))]
  rw [List.nil_append]

theorem parse_block_data_eq (bytes : List Nat) (width height length : Nat)
    (res : List Nat) (hp : parse_loop (width * height * length) bytes [] = .ok res)
    (hlen : res.length = width * height * length) :
    parse_block_data bytes width height length = .ok res := by
  unfold parse_block_data
  rw [hp]
  simp [hlen]

/-- C6 counterexample: a byte array holding 1025 single-byte LEB128 values
(every byte lacks the continuation bit, so the stream is 1025 values) with a
declared volume of `1*1024*1 = 1024` parses successfully: the decoder stops
after 1024 values at the batch boundary and silently ignores the rest.  This
refutes "error if and only if the decoded stream length differs from the
declared volume". -/
theorem C6_counterexample :
    parse_block_data (List.replicate 1025 1) 1 1024 1 = .ok (List.replicate 1024 1) ∧
    (List.replicate 1025 1).length ≠ 1 * 1024 * 1 ∧
    (∀ b ∈ List.replicate 1025 1, b &&& 128 = 0) := by
  refine ⟨?_, by rw [List.length_replicate]; norm_num, ?_⟩
  · exact parse_block_data_eq _ 1 1024 1 _
      (by rw [(by norm_num : 1 * 1024 * 1 = 1024)]; exact parse_loop_replicate_eval)
      (by rw [List.length_replicate])
  · intro b hb
    rw [List.eq_of_mem_replicate hb]
    decide

/-- C6 (amended).  On success `parse_block_data` returns exactly
`Width*Height*Length` values (equivalently: any outcome whose decoded result
does not have exactly that many values is an error); but a byte array
containing more LEB128 values than the declared volume is not by itself an
error — the surplus values are ignored, so the "if and only if" of the
original claim fails. -/
theorem C6_parse_block_data_success_length (bytes : List Nat)
    (width height length : Nat) (res : List Nat)
    (hp : parse_block_data bytes width height length = .ok res) :
    res.length = width * height * length := by
  unfold parse_block_data at hp
  cases hres : parse_loop (width * height * length) bytes [] with
  | error e => rw [hres] at hp; simp at hp
  | ok bd =>
    rw [hres] at hp
    simp only [] at hp
    by_cases hlen : bd.length = width * height * length
    · rw [if_neg (by omega)] at hp
      simp only [Except.ok.injEq] at hp
      rw [← hp, hlen]
    · rw [if_pos (by omega)] at hp
      simp at hp

/-- Witness for the amended C6 at a concrete one-byte input. -/
theorem C6_witness :
    parse_block_data [0] 1 1 1 = .ok [0] ∧ ([0] : List Nat).length = 1 * 1 * 1 := by
  have hb : batch_loop (([0] : List Nat).take (Min.min 1024 ([0] : List Nat).length)) 1024 =
      .ok ([0], 1) := rfl
  have hp : parse_loop (1 * 1 * 1) [0] [] = .ok [0] := by
    rw [(by norm_num : 1 * 1 * 1 = 1), parse_loop_step 1 [0] [] [0] 1 (by simp) hb]
    exact parse_loop_done 1 _ _ (Or.inr (by simp))
  have h := parse_block_data_eq [0] 1 1 1 [0] hp (by simp)
  exact ⟨h, C6_parse_block_data_success_length [0] 1 1 1 [0] h⟩

/-! ## Association-list model of `hashbrown::HashMap` -/

/-- Hash-map `get`: first binding of the key. -/
def lookupKey {α β : Type} [DecidableEq α] (k : α) : List (α × β) → Option β
  | [] => none
  | (k2, v) :: t => if k2 = k then some v else lookupKey k t

/-- Hash-map `insert` for the chunk map: replace the unique binding in place,
or append a fresh one. -/
def insertKey {α β : Type} [DecidableEq α] (k : α) (v : β) : List (α × β) → List (α × β)
  | [] => [(k, v)]
  | (k2, v2) :: t => if k2 = k then (k, v) :: t else (k2, v2) :: insertKey k v t

/-- Hash-map `remove` (observed only through lookups and iteration). -/
def eraseKey {α β : Type} [DecidableEq α] (k : α) (l : List (α × β)) : List (α × β) :=
  l.filter fun p => decide (p.1 ≠ k)

/-! ## Region (src/region.rs)

The embedding covers the block-storage fragment of `Region`: name, position,
size, sparse chunk map, palette and palette lookup.  The `entities` and
`block_entities` fields interact with none of the claims and are omitted. -/

/-- `SUB`, the sub-chunk edge. -/
def SUB : Int := 16

/-- `CHUNK_SIZE = SUB * SUB * SUB` -/
def CHUNK_SIZE : Nat := 4096

/-- A chunk's dense `[u16; 4096]` array, as a function from flat local index
to palette index; every source access goes through an index `< 4096`. -/
abbrev Chunk : Type := Nat → Nat

/-- A freshly allocated chunk, all air. -/
def zeroChunk : Chunk := fun _ => 0

/-- `chunk.iter().all(|&idx| idx == 0)` -/
def chunkAllZero (c : Chunk) : Prop := ∀ i, i < CHUNK_SIZE → c i = 0

instance (c : Chunk) : Decidable (chunkAllZero c) := by
  unfold chunkAllZero; infer_instance

/-- `Region` (block-storage fragment). -/
structure Region where
  name : String
  position : Int × Int × Int
  size : Int × Int × Int
  chunks : List ((Int × Int × Int) × Chunk)
  palette : List BlockState
  palette_lookup : List (BlockState × Nat)

namespace Region

/-- `Region::new`: normalize position and size through the bounding box, put
air at palette index 0. -/
def new (name : String) (position size : Int × Int × Int) : Region :=
  let bounding_box := BoundingBox.from_position_and_size position size
  let position_and_size := bounding_box.to_position_and_size
  { name := name
    position := position_and_size.1
    size := position_and_size.2
    chunks := []
    palette := [BlockState.air]
    palette_lookup := [(BlockState.air, 0)] }

/-- `Region::get_bounding_box` -/
def get_bounding_box (r : Region) : BoundingBox :=
  BoundingBox.from_position_and_size r.position r.size

/-- `Region::is_in_region` -/
def is_in_region (r : Region) (x y z : Int) : Prop :=
  r.get_bounding_box.contains (x, y, z)

instance (r : Region) (x y z : Int) : Decidable (r.is_in_region x y z) := by
  unfold is_in_region; infer_instance

/-- `Region::volume` (`size.0 as usize * size.1 as usize * size.2 as usize`;
the claims quantify over normalized regions, whose size components are
positive, so the casts are `Int.toNat`). -/
def volume (r : Region) : Nat :=
  r.size.1.toNat * r.size.2.1.toNat * r.size.2.2.toNat

/-- `Region::get_chunk_coords_and_index`: Euclidean decomposition of a world
coordinate into chunk key and flat local index
`local_y * SUB * SUB + local_z * SUB + local_x`. -/
def get_chunk_coords_and_index (x y z : Int) : (Int × Int × Int) × Nat :=
  let chunk_x := x.ediv SUB
  let chunk_y := y.ediv SUB
  let chunk_z := z.ediv SUB
  let local_x := (x.emod SUB).toNat
  let local_y := (y.emod SUB).toNat
  let local_z := (z.emod SUB).toNat
  ((chunk_x, chunk_y, chunk_z), local_y * 16 * 16 + local_z * 16 + local_x)

/-- `Region::get_block_index`: `None` outside the bounding box, otherwise the
stored palette index with absent chunks reading as 0. -/
def get_block_index (r : Region) (x y z : Int) : Option Nat :=
  if r.is_in_region x y z then
    match lookupKey (get_chunk_coords_and_index x y z).1 r.chunks with
    | some chunk => some (chunk (get_chunk_coords_and_index x y z).2)
    | none => some 0
  else none

/-- `Region::get_block`.  The source's `else` branch (`Some(&self.palette[0])`)
is unreachable: `get_block_index` returns `Some` whenever the coordinate is in
the region; it is modeled by the same palette read as the reachable path. -/
def get_block (r : Region) (x y z : Int) : Option BlockState :=
  if r.is_in_region x y z then
    match r.get_block_index x y z with
    | some idx => r.palette[idx]?
    | none => r.palette[0]?
  else none

/-- `Region::expand_to_fit`: union the bounding box with the single-point box;
chunks are not touched. -/
def expand_to_fit (r : Region) (x y z : Int) : Region :=
  let current_bounding_box := r.get_bounding_box
  let fit_position_bounding_box := BoundingBox.new (x, y, z) (x, y, z)
  let new_bounding_box := current_bounding_box.union fit_position_bounding_box
  let new_size := new_bounding_box.get_dimensions
  let new_position := new_bounding_box.min
  if new_size = r.size ∧ new_position = r.position then r
  else { r with position := new_position, size := new_size }

/-- `Region::get_or_insert_in_palette`.  `self.palette.len() as PaletteIndex`
is the wrapping `u16` cast, `% 65536`; there is no capacity check. -/
def get_or_insert_in_palette (r : Region) (block : BlockState) : Nat × Region :=
  match lookupKey block r.palette_lookup with
  | some index => (index, r)
  | none =>
    let index := r.palette.length % 65536
    (index,
      { r with
          palette := r.palette ++ [block]
          palette_lookup := (block, index) :: r.palette_lookup })

/-- `Region::set_block_at_index`: no allocation for an air write to an absent
chunk; get-or-create the chunk, store the index, evict the chunk if the air
write made it entirely zero. -/
def set_block_at_index (r : Region) (x y z : Int) (palette_index : Nat) : Region :=
  let chunk_key := (get_chunk_coords_and_index x y z).1
  let idx := (get_chunk_coords_and_index x y z).2
  if palette_index = 0 ∧ (lookupKey chunk_key r.chunks).isNone then r
  else
    let chunk := (lookupKey chunk_key r.chunks).getD zeroChunk
    let chunk2 := Function.update chunk idx palette_index
    if palette_index = 0 ∧ chunkAllZero chunk2 then
      { r with chunks := eraseKey chunk_key r.chunks }
    else
      { r with chunks := insertKey chunk_key chunk2 r.chunks }

/-- `Region::set_block`: expand to fit if outside, intern the block, store its
index (the source also returns `true`, carrying no information). -/
def set_block (r : Region) (x y z : Int) (block : BlockState) : Region :=
  let r1 := if r.is_in_region x y z then r else r.expand_to_fit x y z
  let p := r1.get_or_insert_in_palette block
  p.2.set_block_at_index x y z p.1

/-- `Region::count_blocks`: sum over stored chunks of their non-zero entry
counts. -/
def count_blocks (r : Region) : Nat :=
  (r.chunks.map fun kc =>
    ((List.range CHUNK_SIZE).filter fun i => decide (kc.2 i ≠ 0)).length).sum

/-- The sequential palette-merging loop of `Region::merge`: returns the
updated region and the `palette_mapping` table from `other`'s indices to this
palette's indices.  Lookup hits reuse the stored (`u16`) index; misses append
and record the untruncated new index in the table while the lookup map stores
the `u16` cast. -/
def merge_palette_step (acc : Region × List (Nat × Nat)) (p : Nat × BlockState) :
    Region × List (Nat × Nat) :=
  match lookupKey p.2 acc.1.palette_lookup with
  | some existing => (acc.1, acc.2 ++ [(p.1, existing)])
  | none =>
    ({ acc.1 with
          palette := acc.1.palette ++ [p.2]
          palette_lookup := (p.2, acc.1.palette.length % 65536) :: acc.1.palette_lookup },
      acc.2 ++ [(p.1, acc.1.palette.length)])

def merge_palette (r : Region) (blocks : List BlockState) : Region × List (Nat × Nat) :=
  blocks.enum.foldl merge_palette_step (r, [])

/-- `Region::merge`: set the bounding box to the union, merge the palettes,
then copy every non-air block of `other` through the mapping table with
`set_block_at_index` (`mapped_idx as PaletteIndex` is the `u16` cast; a missing
mapping entry, impossible for index-consistent regions, would panic in the
source and is modeled as 0). -/
def merge_write_step (other : Region) (mapping : List (Nat × Nat)) (acc : Region)
    (q : Int × Int × Int) : Region :=
  match other.get_block_index q.1 q.2.1 q.2.2 with
  | some idx =>
    if idx ≠ 0 then
      acc.set_block_at_index q.1 q.2.1 q.2.2 (((lookupKey idx mapping).getD 0) % 65536)
    else acc
  | none => acc

def merge (r : Region) (other : Region) : Region :=
  let combined_bounding_box := r.get_bounding_box.union other.get_bounding_box
  let r1 := { r with
                position := combined_bounding_box.min
                size := combined_bounding_box.get_dimensions }
  let pm := merge_palette r1 other.palette
  other.get_bounding_box.boxCoords.foldl (merge_write_step other pm.2) pm.1

end Region

/-! ## C1: palette interning -/

/-- A concrete non-air block. -/
def stone : BlockState := ⟨"minecraft:stone", []⟩

/-- A region whose palette already holds 65535 entries.  States with
duplicated air entries in the palette are produced by the public API:
`from_schematic` pre-fills the palette with `vec![air; palette_max + 1]` and
rebuilds the lookup map from it. -/
def overflowRegion : Region where
  name := "R"
  position := (0, 0, 0)
  size := (1, 1, 1)
  chunks := []
  palette := List.replicate 65535 BlockState.air
  palette_lookup := [(BlockState.air, 0)]

/-- Interning a block already in the lookup map returns its index, region
unchanged. -/
theorem getOrInsert_hit (r : Region) (b : BlockState) (i : Nat)
    (h : lookupKey b r.palette_lookup = some i) :
    r.get_or_insert_in_palette b = (i, r) := by
  simp [Region.get_or_insert_in_palette, h]

/-- Interning a block missing from the lookup map appends it. -/
theorem getOrInsert_miss_palette (r : Region) (b : BlockState)
    (h : lookupKey b r.palette_lookup = none) :
    (r.get_or_insert_in_palette b).2.palette = r.palette ++ [b] := by
  simp [Region.get_or_insert_in_palette, h]

theorem getOrInsert_miss_lookup (r : Region) (b : BlockState)
    (h : lookupKey b r.palette_lookup = none) :
    (r.get_or_insert_in_palette b).2.palette_lookup =
      (b, r.palette.length % 65536) :: r.palette_lookup := by
  simp [Region.get_or_insert_in_palette, h]

/-- The returned index for a fresh block is `palette.len() as u16`. -/
theorem getOrInsert_miss_fst (r : Region) (b : BlockState)
    (h : lookupKey b r.palette_lookup = none) :
    (r.get_or_insert_in_palette b).1 = r.palette.length % 65536 := by
  simp [Region.get_or_insert_in_palette, h]

theorem overflowRegion_palette_length : overflowRegion.palette.length = 65535 := by
  show (List.replicate 65535 BlockState.air).length = 65535
  rw [List.length_replicate]

/-- C1 counterexample: interning a new block into a palette of length 65535
(so that the palette would grow past `u16::MAX`) does not fail and does not
leave the palette unchanged — there is no `PaletteFull` check in
`get_or_insert_in_palette`; the palette is extended to 65536 entries and the
wrapped-cast index 65535 is returned through the normal path. -/
theorem C1_counterexample :
    65535 < overflowRegion.palette.length + 1 ∧
    (overflowRegion.get_or_insert_in_palette stone).2.palette ≠ overflowRegion.palette ∧
    (overflowRegion.get_or_insert_in_palette stone).2.palette.length = 65536 ∧
    (overflowRegion.get_or_insert_in_palette stone).1 = 65535 := by
  have hl : lookupKey stone overflowRegion.palette_lookup = none := by decide
  have hlen := overflowRegion_palette_length
  have hres := getOrInsert_miss_palette overflowRegion stone hl
  have hfst := getOrInsert_miss_fst overflowRegion stone hl
  have hlen2 : (overflowRegion.get_or_insert_in_palette stone).2.palette.length =
      65536 := by
    rw [hres, List.length_append, List.length_singleton, hlen]
  refine ⟨by omega, ?_, hlen2, by omega⟩
  intro h
  have hc := congrArg List.length h
  omega

/-- C1 (amended).  `get_or_insert_in_palette` never fails and has no
`PaletteFull` check: a block already in the lookup map returns its stored
index with the region unchanged; a new block always appends to the palette,
records the index `palette.len() as u16` (`% 2^16`, which wraps past 65536
entries) and returns it; for any palette of length at most `u16::MAX` the
returned index equals the new last index. -/
theorem C1_get_or_intern_behavior (r : Region) (block : BlockState) :
    (∀ i, lookupKey block r.palette_lookup = some i →
      r.get_or_insert_in_palette block = (i, r)) ∧
    (lookupKey block r.palette_lookup = none →
      (r.get_or_insert_in_palette block).2.palette = r.palette ++ [block] ∧
      (r.get_or_insert_in_palette block).2.palette_lookup =
        (block, r.palette.length % 65536) :: r.palette_lookup ∧
      (r.get_or_insert_in_palette block).1 = r.palette.length % 65536 ∧
      (r.palette.length ≤ 65535 →
        (r.get_or_insert_in_palette block).1 =
          (r.get_or_insert_in_palette block).2.palette.length - 1)) := by
  constructor
  · intro i hi
    simp [Region.get_or_insert_in_palette, hi]
  · intro hn
    refine ⟨?_, ?_, ?_, fun hle => ?_⟩
    · simp [Region.get_or_insert_in_palette, hn]
    · simp [Region.get_or_insert_in_palette, hn]
    · simp [Region.get_or_insert_in_palette, hn]
    · simp only [Region.get_or_insert_in_palette, hn, List.length_append,
        List.length_singleton]
      omega

/-- Witness for the amended C1 on a fresh region: air is found at index 0
without modification; stone is appended and gets the new last index. -/
theorem C1_witness :
    lookupKey BlockState.air (Region.new "R" (0, 0, 0) (1, 1, 1)).palette_lookup =
      some 0 ∧
    (Region.new "R" (0, 0, 0) (1, 1, 1)).get_or_insert_in_palette BlockState.air =
      (0, Region.new "R" (0, 0, 0) (1, 1, 1)) ∧
    lookupKey stone (Region.new "R" (0, 0, 0) (1, 1, 1)).palette_lookup = none ∧
    ((Region.new "R" (0, 0, 0) (1, 1, 1)).get_or_insert_in_palette stone).2.palette =
      (Region.new "R" (0, 0, 0) (1, 1, 1)).palette ++ [stone] ∧
    ((Region.new "R" (0, 0, 0) (1, 1, 1)).get_or_insert_in_palette stone).1 =
      ((Region.new "R" (0, 0, 0) (1, 1, 1)).get_or_insert_in_palette stone).2.palette.length
        - 1 := by
  have h := C1_get_or_intern_behavior (Region.new "R" (0, 0, 0) (1, 1, 1))
  have hs := (h stone).2 (by decide)
  exact ⟨by decide, (h BlockState.air).1 0 (by decide), by decide, hs.1,
    hs.2.2.2 (by decide)⟩

/-! ## C4: `get_block` characterization -/

/-- C4.  `get_block` returns `None` outside the bounding box (never an
error); inside, an absent chunk reads as the air block at palette index 0,
and a present chunk reads as `palette[chunk[local_idx]]` for the Euclidean
chunk decomposition. -/
theorem C4_get_block_cases (r : Region) (x y z : Int) :
    (¬r.is_in_region x y z → r.get_block x y z = none) ∧
    (r.is_in_region x y z →
      lookupKey (Region.get_chunk_coords_and_index x y z).1 r.chunks = none →
      ∀ hp : 0 < r.palette.length,
        r.get_block x y z = some (r.palette.get ⟨0, hp⟩)) ∧
    (∀ chunk, r.is_in_region x y z →
      lookupKey (Region.get_chunk_coords_and_index x y z).1 r.chunks = some chunk →
      ∀ hlt : chunk (Region.get_chunk_coords_and_index x y z).2 < r.palette.length,
        r.get_block x y z =
          some (r.palette.get ⟨chunk (Region.get_chunk_coords_and_index x y z).2, hlt⟩)) := by
  refine ⟨fun h => ?_, fun h habs hp => ?_, fun chunk h hc hlt => ?_⟩
  · simp [Region.get_block, h]
  · simp only [Region.get_block, Region.get_block_index, if_pos h, habs]
    rw [List.getElem?_eq_getElem hp, List.get_eq_getElem]
  · simp only [Region.get_block, Region.get_block_index, if_pos h, hc]
    rw [List.getElem?_eq_getElem hlt, List.get_eq_getElem]

/-- Witness region for C4: a 2x2x2 region with one stone at the origin. -/
def c4Region : Region := (Region.new "R" (0, 0, 0) (2, 2, 2)).set_block 0 0 0 stone

/-- Witness for C4: out-of-box read, absent-chunk read on a fresh region, and
present-chunk read on `c4Region`. -/
theorem C4_witness :
    (¬c4Region.is_in_region 5 5 5) ∧ c4Region.get_block 5 5 5 = none ∧
    (Region.new "R" (0, 0, 0) (2, 2, 2)).get_block 1 1 1 = some BlockState.air ∧
    c4Region.get_block 0 0 0 = some stone := by
  have h1 := (C4_get_block_cases c4Region 5 5 5).1
  have h2 := (C4_get_block_cases (Region.new "R" (0, 0, 0) (2, 2, 2)) 1 1 1).2.1
  have h3 := (C4_get_block_cases c4Region 0 0 0).2.2
    (Function.update zeroChunk 0 1)
  refine ⟨by decide, h1 (by decide), ?_, ?_⟩
  · exact (h2 (by decide) rfl (by decide)).trans rfl
  · exact (h3 (by decide) rfl (by decide)).trans rfl


/-! ## Association-list and chunk decomposition lemmas -/

theorem mem_insertKey {α β : Type} [DecidableEq α] (k : α) (v : β)
    (l : List (α × β)) (p : α × β) (hp : p ∈ insertKey k v l) :
    p = (k, v) ∨ p ∈ l := by
  induction l with
  | nil => simpa [insertKey] using hp
  | cons hd t ih =>
    obtain ⟨k2, v2⟩ := hd
    simp only [insertKey] at hp
    by_cases hk : k2 = k
    · rw [if_pos hk] at hp
      rcases List.mem_cons.mp hp with h | h
      · exact Or.inl h
      · exact Or.inr (List.mem_cons_of_mem _ h)
    · rw [if_neg hk] at hp
      rcases List.mem_cons.mp hp with h | h
      · exact Or.inr (by rw [h]; exact List.mem_cons_self _ _)
      · rcases ih h with h2 | h2
        · exact Or.inl h2
        · exact Or.inr (List.mem_cons_of_mem _ h2)

theorem mem_eraseKey {α β : Type} [DecidableEq α] (k : α) (l : List (α × β))
    (p : α × β) (hp : p ∈ eraseKey k l) : p ∈ l :=
  List.mem_of_mem_filter hp

theorem lookupKey_insertKey_self {α β : Type} [DecidableEq α] (k : α) (v : β)
    (l : List (α × β)) : lookupKey k (insertKey k v l) = some v := by
  induction l with
  | nil => simp [insertKey, lookupKey]
  | cons hd t ih =>
    obtain ⟨k2, v2⟩ := hd
    simp only [insertKey]
    by_cases hk : k2 = k
    · rw [if_pos hk]
      simp [lookupKey]
    · rw [if_neg hk]
      simp only [lookupKey, if_neg hk]
      exact ih

theorem lookupKey_insertKey_ne {α β : Type} [DecidableEq α] (k k2 : α) (v : β)
    (l : List (α × β)) (h : k2 ≠ k) :
    lookupKey k2 (insertKey k v l) = lookupKey k2 l := by
  induction l with
  | nil =>
    simp only [insertKey, lookupKey]
    rw [if_neg (show ¬k = k2 from fun hc => h hc.symm)]
  | cons hd t ih =>
    obtain ⟨k3, v3⟩ := hd
    simp only [insertKey]
    by_cases hk : k3 = k
    · rw [if_pos hk]
      simp only [lookupKey, if_neg (show k ≠ k2 from fun hc => h hc.symm), hk]
    · rw [if_neg hk]
      simp only [lookupKey]
      by_cases hk2 : k3 = k2
      · rw [if_pos hk2, if_pos hk2]
      · rw [if_neg hk2, if_neg hk2]
        exact ih

theorem eraseKey_cons {α β : Type} [DecidableEq α] (k k2 : α) (v2 : β)
    (t : List (α × β)) :
    eraseKey k ((k2, v2) :: t) =
      if k2 = k then eraseKey k t else (k2, v2) :: eraseKey k t := by
  unfold eraseKey
  by_cases hk : k2 = k
  · rw [if_pos hk, List.filter_cons_of_neg (by simp [hk])]
  · rw [if_neg hk, List.filter_cons_of_pos (by simp [hk])]

theorem lookupKey_eraseKey_self {α β : Type} [DecidableEq α] (k : α)
    (l : List (α × β)) : lookupKey k (eraseKey k l) = none := by
  induction l with
  | nil => simp [eraseKey, lookupKey]
  | cons hd t ih =>
    obtain ⟨k2, v2⟩ := hd
    rw [eraseKey_cons]
    by_cases hk : k2 = k
    · rw [if_pos hk]
      exact ih
    · rw [if_neg hk]
      simp only [lookupKey, if_neg hk]
      exact ih

theorem lookupKey_eraseKey_ne {α β : Type} [DecidableEq α] (k k2 : α)
    (l : List (α × β)) (h : k2 ≠ k) :
    lookupKey k2 (eraseKey k l) = lookupKey k2 l := by
  induction l with
  | nil => simp [eraseKey, lookupKey]
  | cons hd t ih =>
    obtain ⟨k3, v3⟩ := hd
    rw [eraseKey_cons]
    by_cases hk : k3 = k
    · rw [if_pos hk, ih]
      simp only [lookupKey, hk, if_neg (show ¬k = k2 from fun hc => h hc.symm)]
    · rw [if_neg hk]
      simp only [lookupKey]
      by_cases hk2 : k3 = k2
      · rw [if_pos hk2, if_pos hk2]
      · rw [if_neg hk2, if_neg hk2]
        exact ih

/-- The flat local index of the chunk decomposition is always below 4096. -/
theorem local_idx_lt (x y z : Int) :
    (Region.get_chunk_coords_and_index x y z).2 < CHUNK_SIZE := by
  unfold Region.get_chunk_coords_and_index CHUNK_SIZE SUB
  have hx1 : 0 ≤ x.emod 16 := Int.emod_nonneg x (by norm_num)
  have hx2 : x.emod 16 < 16 := Int.emod_lt_of_pos x (by norm_num)
  have hy1 : 0 ≤ y.emod 16 := Int.emod_nonneg y (by norm_num)
  have hy2 : y.emod 16 < 16 := Int.emod_lt_of_pos y (by norm_num)
  have hz1 : 0 ≤ z.emod 16 := Int.emod_nonneg z (by norm_num)
  have hz2 : z.emod 16 < 16 := Int.emod_lt_of_pos z (by norm_num)
  simp only []
  omega

/-- Zeta-expanded unfolding of `set_block_at_index`. -/
theorem sbai_def (r : Region) (x y z : Int) (p : Nat) :
    r.set_block_at_index x y z p =
      if p = 0 ∧ (lookupKey (Region.get_chunk_coords_and_index x y z).1 r.chunks).isNone
      then r
      else if p = 0 ∧ chunkAllZero (Function.update
          ((lookupKey (Region.get_chunk_coords_and_index x y z).1 r.chunks).getD zeroChunk)
          (Region.get_chunk_coords_and_index x y z).2 p) then
        { r with chunks := eraseKey (Region.get_chunk_coords_and_index x y z).1 r.chunks }
      else
        { r with
            chunks := insertKey (Region.get_chunk_coords_and_index x y z).1
              (Function.update
                ((lookupKey (Region.get_chunk_coords_and_index x y z).1 r.chunks).getD
                  zeroChunk)
                (Region.get_chunk_coords_and_index x y z).2 p)
              r.chunks } := rfl

/-- Zeta-expanded unfolding of `expand_to_fit`. -/
theorem expand_def (r : Region) (x y z : Int) :
    r.expand_to_fit x y z =
      if (r.get_bounding_box.union (BoundingBox.new (x, y, z) (x, y, z))).get_dimensions
            = r.size ∧
          (r.get_bounding_box.union (BoundingBox.new (x, y, z) (x, y, z))).min = r.position
      then r
      else
        { r with
            position := (r.get_bounding_box.union (BoundingBox.new (x, y, z) (x, y, z))).min
            size := (r.get_bounding_box.union
              (BoundingBox.new (x, y, z) (x, y, z))).get_dimensions } := rfl

theorem expand_to_fit_chunks (r : Region) (x y z : Int) :
    (r.expand_to_fit x y z).chunks = r.chunks := by
  rw [expand_def]
  split <;> rfl

theorem expand_to_fit_palette (r : Region) (x y z : Int) :
    (r.expand_to_fit x y z).palette = r.palette := by
  rw [expand_def]
  split <;> rfl

theorem expand_to_fit_palette_lookup (r : Region) (x y z : Int) :
    (r.expand_to_fit x y z).palette_lookup = r.palette_lookup := by
  rw [expand_def]
  split <;> rfl

theorem getOrInsert_chunks (r : Region) (b : BlockState) :
    (r.get_or_insert_in_palette b).2.chunks = r.chunks := by
  unfold Region.get_or_insert_in_palette
  cases lookupKey b r.palette_lookup <;> rfl

theorem sbai_position (r : Region) (x y z : Int) (p : Nat) :
    (r.set_block_at_index x y z p).position = r.position := by
  rw [sbai_def]
  split
  · rfl
  · split <;> rfl

theorem sbai_size (r : Region) (x y z : Int) (p : Nat) :
    (r.set_block_at_index x y z p).size = r.size := by
  rw [sbai_def]
  split
  · rfl
  · split <;> rfl

theorem sbai_palette (r : Region) (x y z : Int) (p : Nat) :
    (r.set_block_at_index x y z p).palette = r.palette := by
  rw [sbai_def]
  split
  · rfl
  · split <;> rfl

theorem sbai_palette_lookup (r : Region) (x y z : Int) (p : Nat) :
    (r.set_block_at_index x y z p).palette_lookup = r.palette_lookup := by
  rw [sbai_def]
  split
  · rfl
  · split <;> rfl


/-! ## C5: no stored chunk is entirely zero -/

/-- No chunk stored in the region's chunk map is entirely zero. -/
def chunksNonZero (r : Region) : Prop := ∀ kc ∈ r.chunks, ¬chunkAllZero kc.2

theorem chunksNonZero_of_chunks_eq {r1 r2 : Region} (h : r1.chunks = r2.chunks)
    (h2 : chunksNonZero r2) : chunksNonZero r1 := fun kc hkc => h2 kc (h ▸ hkc)

theorem new_chunksNonZero (name : String) (position size : Int × Int × Int) :
    chunksNonZero (Region.new name position size) := fun kc hkc =>
  absurd hkc (List.not_mem_nil kc)

theorem sbai_chunksNonZero (r : Region) (x y z : Int) (p : Nat)
    (h : chunksNonZero r) : chunksNonZero (r.set_block_at_index x y z p) := by
  rw [sbai_def]
  split
  · exact h
  · split
    · intro kc hkc
      exact h kc (mem_eraseKey _ _ _ hkc)
    · rename_i h1 h2
      intro kc hkc
      rcases mem_insertKey _ _ _ _ hkc with he | hm
      · intro hz
        by_cases hp : p = 0
        · refine h2 ⟨hp, ?_⟩
          rw [he] at hz
          exact hz
        · have hidx := local_idx_lt x y z
          have hval := hz _ hidx
          rw [he] at hval
          simp only [Function.update_same] at hval
          exact hp hval
      · exact h kc hm

theorem set_block_def (r : Region) (x y z : Int) (b : BlockState) :
    r.set_block x y z b =
      (((if r.is_in_region x y z then r else r.expand_to_fit x y z).get_or_insert_in_palette
          b).2).set_block_at_index x y z
        (((if r.is_in_region x y z then r else r.expand_to_fit x y z).get_or_insert_in_palette
          b).1) := rfl

theorem set_block_chunksNonZero (r : Region) (x y z : Int) (b : BlockState)
    (h : chunksNonZero r) : chunksNonZero (r.set_block x y z b) := by
  rw [set_block_def]
  apply sbai_chunksNonZero
  refine chunksNonZero_of_chunks_eq ((getOrInsert_chunks _ _).trans ?_) h
  split
  · rfl
  · exact expand_to_fit_chunks _ _ _ _

theorem merge_palette_step_chunks (acc : Region × List (Nat × Nat))
    (p : Nat × BlockState) :
    (Region.merge_palette_step acc p).1.chunks = acc.1.chunks := by
  unfold Region.merge_palette_step
  cases lookupKey p.2 acc.1.palette_lookup <;> rfl

theorem foldl_merge_palette_chunks (l : List (Nat × BlockState)) :
    ∀ acc : Region × List (Nat × Nat),
      (l.foldl Region.merge_palette_step acc).1.chunks = acc.1.chunks := by
  induction l with
  | nil => intro acc; rfl
  | cons p t ih =>
    intro acc
    rw [List.foldl_cons, ih, merge_palette_step_chunks]

theorem foldl_write_chunksNonZero (other : Region) (m : List (Nat × Nat))
    (coords : List (Int × Int × Int)) :
    ∀ acc : Region, chunksNonZero acc →
      chunksNonZero (coords.foldl (Region.merge_write_step other m) acc) := by
  induction coords with
  | nil => intro acc h; exact h
  | cons q t ih =>
    intro acc h
    rw [List.foldl_cons]
    apply ih
    unfold Region.merge_write_step
    cases other.get_block_index q.1 q.2.1 q.2.2 with
    | none => exact h
    | some idx =>
      show chunksNonZero (if idx ≠ 0 then
        acc.set_block_at_index q.1 q.2.1 q.2.2 (((lookupKey idx m).getD 0) % 65536)
        else acc)
      split
      · exact sbai_chunksNonZero _ _ _ _ _ h
      · exact h

theorem merge_def (r other : Region) :
    r.merge other =
      other.get_bounding_box.boxCoords.foldl
        (Region.merge_write_step other
          (Region.merge_palette
            { r with
                position := (r.get_bounding_box.union other.get_bounding_box).min
                size := (r.get_bounding_box.union other.get_bounding_box).get_dimensions }
            other.palette).2)
        (Region.merge_palette
          { r with
              position := (r.get_bounding_box.union other.get_bounding_box).min
              size := (r.get_bounding_box.union other.get_bounding_box).get_dimensions }
          other.palette).1 := rfl

theorem merge_chunksNonZero (r other : Region) (h : chunksNonZero r) :
    chunksNonZero (r.merge other) := by
  rw [merge_def]
  apply foldl_write_chunksNonZero
  refine chunksNonZero_of_chunks_eq ?_ h
  unfold Region.merge_palette
  rw [foldl_merge_palette_chunks]

theorem sbai_air_absent (r : Region) (x y z : Int)
    (h : lookupKey (Region.get_chunk_coords_and_index x y z).1 r.chunks = none) :
    r.set_block_at_index x y z 0 = r := by
  rw [sbai_def, if_pos ⟨rfl, by rw [h]; rfl⟩]

theorem sbai_evicts (r : Region) (x y z : Int) (c : Chunk)
    (hc : lookupKey (Region.get_chunk_coords_and_index x y z).1 r.chunks = some c)
    (hz : chunkAllZero (Function.update c (Region.get_chunk_coords_and_index x y z).2 0)) :
    lookupKey (Region.get_chunk_coords_and_index x y z).1
      (r.set_block_at_index x y z 0).chunks = none := by
  rw [sbai_def]
  rw [if_neg (by rw [hc]; simp)]
  rw [if_pos ⟨rfl, by rw [hc]; exact hz⟩]
  exact lookupKey_eraseKey_self _ _

/-- C5.  After every Region operation no stored chunk is entirely zero: the
invariant holds for fresh regions and is preserved by `set_block_at_index`,
`set_block` (any block, air included) and `merge`; moreover an air write to an
absent chunk allocates nothing (the region is returned unchanged), and an air
write that makes its chunk all-zero removes that chunk from the map. -/
theorem C5_chunk_eviction_invariant :
    (∀ (name : String) (position size : Int × Int × Int),
      chunksNonZero (Region.new name position size)) ∧
    (∀ (r : Region) (x y z : Int) (p : Nat),
      chunksNonZero r → chunksNonZero (r.set_block_at_index x y z p)) ∧
    (∀ (r : Region) (x y z : Int) (b : BlockState),
      chunksNonZero r → chunksNonZero (r.set_block x y z b)) ∧
    (∀ r other : Region, chunksNonZero r → chunksNonZero (r.merge other)) ∧
    (∀ (r : Region) (x y z : Int),
      lookupKey (Region.get_chunk_coords_and_index x y z).1 r.chunks = none →
      r.set_block_at_index x y z 0 = r) ∧
    (∀ (r : Region) (x y z : Int) (c : Chunk),
      lookupKey (Region.get_chunk_coords_and_index x y z).1 r.chunks = some c →
      chunkAllZero (Function.update c (Region.get_chunk_coords_and_index x y z).2 0) →
      lookupKey (Region.get_chunk_coords_and_index x y z).1
        (r.set_block_at_index x y z 0).chunks = none) :=
  ⟨new_chunksNonZero, sbai_chunksNonZero, set_block_chunksNonZero, merge_chunksNonZero,
    sbai_air_absent, sbai_evicts⟩

/-- Witness for C5: fresh region, a region with one stone block, an air write
to an absent chunk, and an eviction after overwriting the stone with air. -/
theorem C5_witness :
    chunksNonZero (Region.new "R" (0, 0, 0) (2, 2, 2)) ∧
    chunksNonZero c4Region ∧
    (Region.new "R" (0, 0, 0) (2, 2, 2)).set_block_at_index 1 1 1 0 =
      Region.new "R" (0, 0, 0) (2, 2, 2) ∧
    lookupKey (Region.get_chunk_coords_and_index 0 0 0).1
      (c4Region.set_block_at_index 0 0 0 0).chunks = none := by
  have h := C5_chunk_eviction_invariant
  have h1 := h.1 "R" (0, 0, 0) (2, 2, 2)
  refine ⟨h1, ?_, ?_, ?_⟩
  · exact h.2.2.1 _ 0 0 0 stone h1
  · exact h.2.2.2.2.1 (Region.new "R" (0, 0, 0) (2, 2, 2)) 1 1 1 rfl
  · refine h.2.2.2.2.2 c4Region 0 0 0 (Function.update zeroChunk 0 1) rfl ?_
    show chunkAllZero (Function.update (Function.update zeroChunk 0 1) 0 0)
    intro i hi
    by_cases h0 : i = 0
    · rw [h0, Function.update_same]
    · rw [Function.update_noteq h0, Function.update_noteq h0]
      rfl


/-! ## C2 infrastructure: write sequences, chunk values, bounding boxes -/

/-- Apply a sequence of `set_block` calls. -/
def applyWrites (r : Region) (ws : List ((Int × Int × Int) × BlockState)) : Region :=
  ws.foldl (fun acc w => acc.set_block w.1.1 w.1.2.1 w.1.2.2 w.2) r

/-- The block of the last write at a coordinate, if any. -/
def lastWrite (ws : List ((Int × Int × Int) × BlockState)) (q : Int × Int × Int) :
    Option BlockState :=
  (ws.reverse.find? fun w => decide (w.1 = q)).map Prod.snd

/-- The palette index stored for a coordinate (absent chunks read as 0),
without the bounding-box check. -/
def chunk_value (r : Region) (x y z : Int) : Nat :=
  match lookupKey (Region.get_chunk_coords_and_index x y z).1 r.chunks with
  | some c => c (Region.get_chunk_coords_and_index x y z).2
  | none => 0

theorem lastWrite_append_self (ws : List ((Int × Int × Int) × BlockState))
    (q : Int × Int × Int) (b : BlockState) :
    lastWrite (ws ++ [(q, b)]) q = some b := by
  unfold lastWrite
  rw [List.reverse_append]
  simp [List.find?]

theorem lastWrite_append_ne (ws : List ((Int × Int × Int) × BlockState))
    (q q2 : Int × Int × Int) (b : BlockState) (h : q2 ≠ q) :
    lastWrite (ws ++ [(q, b)]) q2 = lastWrite ws q2 := by
  unfold lastWrite
  rw [List.reverse_append]
  have hd : (decide ((q, b).1 = q2)) = false := by
    simp only [decide_eq_false_iff_not]
    intro hc
    exact h hc.symm
  simp only [List.reverse_singleton, List.singleton_append, List.find?, hd, List.nil_append]
  rfl

theorem lastWrite_nil (q : Int × Int × Int) : lastWrite [] q = none := rfl

theorem chunks_mk (r : Region) (cs : List ((Int × Int × Int) × Chunk)) :
    ({ r with chunks := cs } : Region).chunks = cs := rfl

theorem chunk_value_congr {r1 r2 : Region} (h : r1.chunks = r2.chunks)
    (x y z : Int) : chunk_value r1 x y z = chunk_value r2 x y z := by
  unfold chunk_value
  rw [h]

/-- `chunk_value` as a `getD` of the chunk lookup. -/
theorem chunk_value_eq (r : Region) (x y z : Int) :
    chunk_value r x y z =
      ((lookupKey (Region.get_chunk_coords_and_index x y z).1 r.chunks).getD zeroChunk)
        (Region.get_chunk_coords_and_index x y z).2 := by
  unfold chunk_value
  cases lookupKey (Region.get_chunk_coords_and_index x y z).1 r.chunks with
  | none => rfl
  | some c => rfl

/-- In-region reads go through the palette at the stored chunk value. -/
theorem get_block_eq_palette_chunk_value (r : Region) (x y z : Int)
    (h : r.is_in_region x y z) :
    r.get_block x y z = r.palette[chunk_value r x y z]? := by
  unfold Region.get_block Region.get_block_index chunk_value
  rw [if_pos h, if_pos h]
  cases lookupKey (Region.get_chunk_coords_and_index x y z).1 r.chunks <;> rfl

/-- After a write, the written coordinate stores exactly the written index. -/
theorem chunk_value_sbai_self (r : Region) (x y z : Int) (p : Nat) :
    chunk_value (r.set_block_at_index x y z p) x y z = p := by
  rw [sbai_def]
  split
  · rename_i h1
    rw [chunk_value_eq]
    cases hl : lookupKey (Region.get_chunk_coords_and_index x y z).1 r.chunks with
    | none => exact h1.1.symm
    | some c => rw [hl] at h1; simp at h1
  · split
    · rename_i h1 h2
      rw [chunk_value_eq, chunks_mk, lookupKey_eraseKey_self]
      exact h2.1.symm
    · rw [chunk_value_eq, chunks_mk, lookupKey_insertKey_self]
      exact Function.update_same _ _ _


theorem gcc_inj (x y z x2 y2 z2 : Int)
    (hk : (Region.get_chunk_coords_and_index x2 y2 z2).1 =
      (Region.get_chunk_coords_and_index x y z).1)
    (hi : (Region.get_chunk_coords_and_index x2 y2 z2).2 =
      (Region.get_chunk_coords_and_index x y z).2) :
    x2 = x ∧ y2 = y ∧ z2 = z := by
  unfold Region.get_chunk_coords_and_index SUB at hk hi
  simp only [Prod.mk.injEq] at hk hi
  have hx1 : 0 ≤ x.emod 16 := Int.emod_nonneg x (by norm_num)
  have hx2 : x.emod 16 < 16 := Int.emod_lt_of_pos x (by norm_num)
  have hy1 : 0 ≤ y.emod 16 := Int.emod_nonneg y (by norm_num)
  have hy2 : y.emod 16 < 16 := Int.emod_lt_of_pos y (by norm_num)
  have hz1 : 0 ≤ z.emod 16 := Int.emod_nonneg z (by norm_num)
  have hz2 : z.emod 16 < 16 := Int.emod_lt_of_pos z (by norm_num)
  have hx1b : 0 ≤ x2.emod 16 := Int.emod_nonneg x2 (by norm_num)
  have hx2b : x2.emod 16 < 16 := Int.emod_lt_of_pos x2 (by norm_num)
  have hy1b : 0 ≤ y2.emod 16 := Int.emod_nonneg y2 (by norm_num)
  have hy2b : y2.emod 16 < 16 := Int.emod_lt_of_pos y2 (by norm_num)
  have hz1b : 0 ≤ z2.emod 16 := Int.emod_nonneg z2 (by norm_num)
  have hz2b : z2.emod 16 < 16 := Int.emod_lt_of_pos z2 (by norm_num)
  have hdx : 16 * (x.ediv 16) + x.emod 16 = x := Int.ediv_add_emod x 16
  have hdy : 16 * (y.ediv 16) + y.emod 16 = y := Int.ediv_add_emod y 16
  have hdz : 16 * (z.ediv 16) + z.emod 16 = z := Int.ediv_add_emod z 16
  have hdx2 : 16 * (x2.ediv 16) + x2.emod 16 = x2 := Int.ediv_add_emod x2 16
  have hdy2 : 16 * (y2.ediv 16) + y2.emod 16 = y2 := Int.ediv_add_emod y2 16
  have hdz2 : 16 * (z2.ediv 16) + z2.emod 16 = z2 := Int.ediv_add_emod z2 16
  omega

/-- A write at one coordinate does not change the stored value at any other
coordinate. -/
theorem chunk_value_sbai_ne (r : Region) (x y z : Int) (p : Nat)
    (x2 y2 z2 : Int) (hne : ¬(x2 = x ∧ y2 = y ∧ z2 = z)) :
    chunk_value (r.set_block_at_index x y z p) x2 y2 z2 = chunk_value r x2 y2 z2 := by
  rw [sbai_def]
  split
  · rfl
  · by_cases hkey : (Region.get_chunk_coords_and_index x2 y2 z2).1 =
        (Region.get_chunk_coords_and_index x y z).1
    · have hidx : (Region.get_chunk_coords_and_index x2 y2 z2).2 ≠
          (Region.get_chunk_coords_and_index x y z).2 := by
        intro hi
        exact hne (gcc_inj x y z x2 y2 z2 hkey hi)
      split
      · rename_i h1 h2
        rw [chunk_value_eq, chunk_value_eq, chunks_mk, hkey, lookupKey_eraseKey_self]
        have hc2 := h2.2 ((Region.get_chunk_coords_and_index x2 y2 z2).2)
          (local_idx_lt x2 y2 z2)
        rw [Function.update_noteq hidx] at hc2
        rw [hc2]
        rfl
      · rw [chunk_value_eq, chunk_value_eq, chunks_mk, hkey, lookupKey_insertKey_self]
        exact Function.update_noteq hidx _ _
    · split
      · rw [chunk_value_eq, chunk_value_eq, chunks_mk, lookupKey_eraseKey_ne _ _ _ hkey]
      · rw [chunk_value_eq, chunk_value_eq, chunks_mk, lookupKey_insertKey_ne _ _ _ _ hkey]


/-! ## Bounding boxes of normalized regions and `expand_to_fit` -/

theorem axis_min_le_max (p s : Int) :
    Min.min p (p + s) + -(Min.min s.sign 0) ≤ Max.max p (p + s) + -(Max.max s.sign 0) := by
  rcases lt_trichotomy s 0 with h | h | h
  · rw [Int.sign_eq_neg_one_of_neg h]
    omega
  · subst h
    rw [Int.sign_zero]
    omega
  · rw [Int.sign_eq_one_of_pos h]
    omega

/-- For positive sizes `from_position_and_size` is the inclusive box
`[p, p + s - 1]`. -/
theorem fromPS_pos (p s : Int × Int × Int) (h1 : 1 ≤ s.1) (h2 : 1 ≤ s.2.1)
    (h3 : 1 ≤ s.2.2) :
    BoundingBox.from_position_and_size p s =
      BoundingBox.new p (p.1 + s.1 - 1, p.2.1 + s.2.1 - 1, p.2.2 + s.2.2 - 1) := by
  obtain ⟨p1, p2, p3⟩ := p
  obtain ⟨s1, s2, s3⟩ := s
  simp only at h1 h2 h3
  simp only [BoundingBox.from_position_and_size, BoundingBox.new]
  rw [Int.sign_eq_one_of_pos (show (0 : Int) < s1 by omega),
    Int.sign_eq_one_of_pos (show (0 : Int) < s2 by omega),
    Int.sign_eq_one_of_pos (show (0 : Int) < s3 by omega)]
  simp only [BoundingBox.mk.injEq, Prod.mk.injEq]
  exact ⟨⟨by omega, by omega, by omega⟩, by omega, by omega, by omega⟩

/-- `Region::new` always produces positive size components. -/
theorem new_size_pos (name : String) (p s : Int × Int × Int) :
    1 ≤ (Region.new name p s).size.1 ∧ 1 ≤ (Region.new name p s).size.2.1 ∧
      1 ≤ (Region.new name p s).size.2.2 := by
  obtain ⟨p1, p2, p3⟩ := p
  obtain ⟨s1, s2, s3⟩ := s
  have h1 := axis_min_le_max p1 s1
  have h2 := axis_min_le_max p2 s2
  have h3 := axis_min_le_max p3 s3
  simp only [Region.new, BoundingBox.from_position_and_size, BoundingBox.new,
    BoundingBox.to_position_and_size, BoundingBox.get_dimensions]
  exact ⟨by omega, by omega, by omega⟩

/-- The bounding box of a region with positive size components. -/
theorem bbox_of_normalized (r : Region) (h1 : 1 ≤ r.size.1) (h2 : 1 ≤ r.size.2.1)
    (h3 : 1 ≤ r.size.2.2) :
    r.get_bounding_box = BoundingBox.new r.position
      (r.position.1 + r.size.1 - 1, r.position.2.1 + r.size.2.1 - 1,
        r.position.2.2 + r.size.2.2 - 1) := by
  unfold Region.get_bounding_box
  exact fromPS_pos r.position r.size h1 h2 h3

/-- `expand_to_fit` on a normalized region keeps the size positive, preserves
bounding-box containment, and makes the target coordinate contained. -/
theorem expand_bbox (r : Region) (x y z : Int) (h1 : 1 ≤ r.size.1)
    (h2 : 1 ≤ r.size.2.1) (h3 : 1 ≤ r.size.2.2) :
    (1 ≤ (r.expand_to_fit x y z).size.1 ∧ 1 ≤ (r.expand_to_fit x y z).size.2.1 ∧
      1 ≤ (r.expand_to_fit x y z).size.2.2) ∧
    (∀ q : Int × Int × Int, r.get_bounding_box.contains q →
      (r.expand_to_fit x y z).get_bounding_box.contains q) ∧
    (r.expand_to_fit x y z).get_bounding_box.contains (x, y, z) := by
  have hb := bbox_of_normalized r h1 h2 h3
  rw [expand_def]
  set B := r.get_bounding_box.union (BoundingBox.new (x, y, z) (x, y, z)) with hB
  have hBmin1 : B.min.1 = Min.min r.position.1 x := by rw [hB, hb]; rfl
  have hBmin2 : B.min.2.1 = Min.min r.position.2.1 y := by rw [hB, hb]; rfl
  have hBmin3 : B.min.2.2 = Min.min r.position.2.2 z := by rw [hB, hb]; rfl
  have hBmax1 : B.max.1 = Max.max (r.position.1 + r.size.1 - 1) x := by rw [hB, hb]; rfl
  have hBmax2 : B.max.2.1 = Max.max (r.position.2.1 + r.size.2.1 - 1) y := by
    rw [hB, hb]; rfl
  have hBmax3 : B.max.2.2 = Max.max (r.position.2.2 + r.size.2.2 - 1) z := by
    rw [hB, hb]; rfl
  have f1 : B.get_dimensions.1 = B.max.1 - B.min.1 + 1 := rfl
  have f2 : B.get_dimensions.2.1 = B.max.2.1 - B.min.2.1 + 1 := rfl
  have f3 : B.get_dimensions.2.2 = B.max.2.2 - B.min.2.2 + 1 := rfl
  split
  · rename_i ht
    have g1 := congrArg Prod.fst ht.1
    have g2 := congrArg (fun t : Int × Int × Int => t.2.1) ht.1
    have g3 := congrArg (fun t : Int × Int × Int => t.2.2) ht.1
    have g4 := congrArg Prod.fst ht.2
    have g5 := congrArg (fun t : Int × Int × Int => t.2.1) ht.2
    have g6 := congrArg (fun t : Int × Int × Int => t.2.2) ht.2
    simp only at g1 g2 g3 g4 g5 g6
    refine ⟨⟨h1, h2, h3⟩, fun q hq => hq, ?_⟩
    rw [hb]
    simp only [BoundingBox.contains, BoundingBox.new, ge_iff_le]
    omega
  · have hd1 : 1 ≤ B.get_dimensions.1 := by omega
    have hd2 : 1 ≤ B.get_dimensions.2.1 := by omega
    have hd3 : 1 ≤ B.get_dimensions.2.2 := by omega
    have hbb2 : ({ r with position := B.min, size := B.get_dimensions } :
        Region).get_bounding_box = BoundingBox.new B.min
          (B.min.1 + B.get_dimensions.1 - 1, B.min.2.1 + B.get_dimensions.2.1 - 1,
            B.min.2.2 + B.get_dimensions.2.2 - 1) := by
      unfold Region.get_bounding_box
      exact fromPS_pos _ _ hd1 hd2 hd3
    refine ⟨⟨hd1, hd2, hd3⟩, ?_, ?_⟩
    · intro q hq
      rw [hb] at hq
      rw [hbb2]
      simp only [BoundingBox.contains, BoundingBox.new, ge_iff_le] at hq ⊢
      omega
    · rw [hbb2]
      simp only [BoundingBox.contains, BoundingBox.new, ge_iff_le]
      omega

theorem getOrInsert_position (r : Region) (b : BlockState) :
    (r.get_or_insert_in_palette b).2.position = r.position := by
  unfold Region.get_or_insert_in_palette
  cases lookupKey b r.palette_lookup <;> rfl

theorem getOrInsert_size (r : Region) (b : BlockState) :
    (r.get_or_insert_in_palette b).2.size = r.size := by
  unfold Region.get_or_insert_in_palette
  cases lookupKey b r.palette_lookup <;> rfl


/-! ## C2: the write-sequence invariant -/

theorem lookupKey_cons {α β : Type} [DecidableEq α] (k k2 : α) (v : β)
    (t : List (α × β)) :
    lookupKey k2 ((k, v) :: t) = if k = k2 then some v else lookupKey k2 t := rfl

/-- Invariant carried along a sequence of `set_block` calls: `done` is the
list of writes already applied, `BL` a fixed superset of all blocks written
during the whole sequence. -/
structure WriteInv (r : Region) (done : List ((Int × Int × Int) × BlockState))
    (BL : List BlockState) : Prop where
  size_pos : 1 ≤ r.size.1 ∧ 1 ≤ r.size.2.1 ∧ 1 ≤ r.size.2.2
  coords_in : ∀ w ∈ done, r.get_bounding_box.contains w.1
  lookup_get : ∀ b i, lookupKey b r.palette_lookup = some i → r.palette[i]? = some b
  palette_in_lookup : ∀ b ∈ r.palette, ∃ i, lookupKey b r.palette_lookup = some i
  palette_nodup : r.palette.Nodup
  palette_sub : ∀ b ∈ r.palette, b = BlockState.air ∨ b ∈ BL
  readback : ∀ q b, lastWrite done q = some b →
    r.palette[chunk_value r q.1 q.2.1 q.2.2]? = some b

/-- A fresh region satisfies the invariant with no writes done. -/
theorem WriteInv_new (name : String) (p s : Int × Int × Int)
    (BL : List BlockState) : WriteInv (Region.new name p s) [] BL := by
  refine ⟨new_size_pos name p s, ?_, ?_, ?_, ?_, ?_, ?_⟩
  · intro w hw
    cases hw
  · intro b i h
    have h2 : (if BlockState.air = b then some 0 else lookupKey b ([] : List (BlockState × Nat)))
        = some i := h
    by_cases hb : BlockState.air = b
    · rw [if_pos hb] at h2
      injection h2 with h3
      show ([BlockState.air] : List BlockState)[i]? = some b
      rw [← h3, ← hb]
      rfl
    · rw [if_neg hb] at h2
      cases h2
  · intro b hb
    have hb2 : b = BlockState.air := List.mem_singleton.mp hb
    refine ⟨0, ?_⟩
    show (if BlockState.air = b then some 0 else lookupKey b ([] : List (BlockState × Nat)))
      = some 0
    rw [if_pos hb2.symm]
  · exact List.nodup_singleton _
  · intro b hb
    exact Or.inl (List.mem_singleton.mp hb)
  · intro q b h
    rw [lastWrite_nil] at h
    cases h

/-- `set_block_at_index` with a palette index resolving to the written block
extends the invariant by one write. -/
theorem WriteInv_sbai (r1 : Region) (done : List ((Int × Int × Int) × BlockState))
    (BL : List BlockState) (q : Int × Int × Int) (b : BlockState) (i : Nat)
    (inv : WriteInv r1 done BL) (htarget : r1.get_bounding_box.contains q)
    (hpi : r1.palette[i]? = some b) :
    WriteInv (r1.set_block_at_index q.1 q.2.1 q.2.2 i) (done ++ [(q, b)]) BL := by
  have hbb : (r1.set_block_at_index q.1 q.2.1 q.2.2 i).get_bounding_box =
      r1.get_bounding_box := by
    unfold Region.get_bounding_box
    rw [sbai_position, sbai_size]
  refine ⟨?_, ?_, ?_, ?_, ?_, ?_, ?_⟩
  · rw [sbai_size]
    exact inv.size_pos
  · intro w hw
    rw [hbb]
    rcases List.mem_append.mp hw with h | h
    · exact inv.coords_in w h
    · rw [List.mem_singleton.mp h]
      exact htarget
  · intro c j hj
    rw [sbai_palette]
    rw [sbai_palette_lookup] at hj
    exact inv.lookup_get c j hj
  · intro c hc
    rw [sbai_palette] at hc
    rw [sbai_palette_lookup]
    exact inv.palette_in_lookup c hc
  · rw [sbai_palette]
    exact inv.palette_nodup
  · intro c hc
    rw [sbai_palette] at hc
    exact inv.palette_sub c hc
  · intro q2 c h
    rw [sbai_palette]
    by_cases hq : q2 = q
    · subst hq
      rw [lastWrite_append_self] at h
      injection h with h2
      rw [chunk_value_sbai_self]
      rw [← h2]
      exact hpi
    · rw [lastWrite_append_ne _ _ _ _ hq] at h
      rw [chunk_value_sbai_ne r1 q.1 q.2.1 q.2.2 i q2.1 q2.2.1 q2.2.2 ?hne]
      · exact inv.readback q2 c h
      case hne =>
        intro he
        exact hq (Prod.ext_iff.mpr ⟨he.1, Prod.ext_iff.mpr ⟨he.2.1, he.2.2⟩⟩)

/-- `expand_to_fit` preserves the invariant. -/
theorem WriteInv_expand (r : Region) (x y z : Int)
    (done : List ((Int × Int × Int) × BlockState)) (BL : List BlockState)
    (inv : WriteInv r done BL) : WriteInv (r.expand_to_fit x y z) done BL := by
  obtain ⟨hs1, hs2, hs3⟩ := inv.size_pos
  have he := expand_bbox r x y z hs1 hs2 hs3
  refine ⟨he.1, ?_, ?_, ?_, ?_, ?_, ?_⟩
  · intro w hw
    exact he.2.1 w.1 (inv.coords_in w hw)
  · intro c j hj
    rw [expand_to_fit_palette]
    rw [expand_to_fit_palette_lookup] at hj
    exact inv.lookup_get c j hj
  · intro c hc
    rw [expand_to_fit_palette] at hc
    rw [expand_to_fit_palette_lookup]
    exact inv.palette_in_lookup c hc
  · rw [expand_to_fit_palette]
    exact inv.palette_nodup
  · intro c hc
    rw [expand_to_fit_palette] at hc
    exact inv.palette_sub c hc
  · intro q2 c h
    rw [expand_to_fit_palette,
      chunk_value_congr (expand_to_fit_chunks r x y z) q2.1 q2.2.1 q2.2.2]
    exact inv.readback q2 c h


/-- Intern-then-store extends the invariant, provided the total distinct
block count stays below the `u16` wrap. -/
theorem WriteInv_intern_sbai (r1 : Region)
    (done : List ((Int × Int × Int) × BlockState)) (BL : List BlockState)
    (q : Int × Int × Int) (b : BlockState) (inv : WriteInv r1 done BL)
    (htarget : r1.get_bounding_box.contains q) (hbBL : b ∈ BL)
    (hBL : BL.dedup.length ≤ 65535) :
    WriteInv ((r1.get_or_insert_in_palette b).2.set_block_at_index q.1 q.2.1 q.2.2
      (r1.get_or_insert_in_palette b).1) (done ++ [(q, b)]) BL := by
  cases hlk : lookupKey b r1.palette_lookup with
  | some i0 =>
    rw [getOrInsert_hit r1 b i0 hlk]
    exact WriteInv_sbai r1 done BL q b i0 inv htarget (inv.lookup_get b i0 hlk)
  | none =>
    have hnotmem : b ∉ r1.palette := by
      intro hb
      obtain ⟨j, hj⟩ := inv.palette_in_lookup b hb
      rw [hlk] at hj
      cases hj
    have hnodup2 : (r1.palette ++ [b]).Nodup := by
      rw [List.nodup_append]
      refine ⟨inv.palette_nodup, List.nodup_singleton b, ?_⟩
      intro a ha ha2
      rw [List.mem_singleton.mp ha2] at ha
      exact hnotmem ha
    have hsub2 : ∀ c ∈ r1.palette ++ [b], c = BlockState.air ∨ c ∈ BL := by
      intro c hc
      rcases List.mem_append.mp hc with h | h
      · exact inv.palette_sub c h
      · rw [List.mem_singleton.mp h]
        exact Or.inr hbBL
    have hsp : List.Subperm (r1.palette ++ [b]) (BlockState.air :: BL.dedup) := by
      refine List.Nodup.subperm hnodup2 ?_
      intro c hc
      rcases hsub2 c hc with h | h
      · rw [h]
        exact List.mem_cons_self _ _
      · exact List.mem_cons_of_mem _ (List.mem_dedup.mpr h)
    have hlenb : (r1.palette ++ [b]).length ≤ BL.dedup.length + 1 := by
      have := hsp.length_le
      rw [List.length_cons] at this
      exact this
    have hlen : r1.palette.length ≤ 65535 := by
      rw [List.length_append, List.length_singleton] at hlenb
      omega
    have hidx : (r1.get_or_insert_in_palette b).1 = r1.palette.length := by
      rw [getOrInsert_miss_fst r1 b hlk]
      exact Nat.mod_eq_of_lt (by omega)
    have hpal2 : (r1.get_or_insert_in_palette b).2.palette = r1.palette ++ [b] :=
      getOrInsert_miss_palette r1 b hlk
    have hlkp2 : (r1.get_or_insert_in_palette b).2.palette_lookup =
        (b, r1.palette.length % 65536) :: r1.palette_lookup :=
      getOrInsert_miss_lookup r1 b hlk
    have hbbeq : (r1.get_or_insert_in_palette b).2.get_bounding_box =
        r1.get_bounding_box := by
      unfold Region.get_bounding_box
      rw [getOrInsert_position, getOrInsert_size]
    have hmod : r1.palette.length % 65536 = r1.palette.length :=
      Nat.mod_eq_of_lt (by omega)
    have inv2 : WriteInv (r1.get_or_insert_in_palette b).2 done BL := by
      refine ⟨?_, ?_, ?_, ?_, ?_, ?_, ?_⟩
      · rw [getOrInsert_size]
        exact inv.size_pos
      · intro w hw
        rw [hbbeq]
        exact inv.coords_in w hw
      · intro c j hj
        rw [hlkp2, lookupKey_cons] at hj
        rw [hpal2]
        by_cases hbc : b = c
        · rw [if_pos hbc] at hj
          injection hj with hj2
          rw [← hj2, hmod, ← hbc]
          exact List.getElem?_concat_length r1.palette b
        · rw [if_neg hbc] at hj
          have hold := inv.lookup_get c j hj
          obtain ⟨hjlt, hjv⟩ := List.getElem?_eq_some.mp hold
          rw [List.getElem?_append_left hjlt]
          exact hold
      · intro c hc
        rw [hpal2] at hc
        rw [hlkp2]
        by_cases hbc : b = c
        · exact ⟨r1.palette.length % 65536, by rw [lookupKey_cons, if_pos hbc]⟩
        · rcases List.mem_append.mp hc with h | h
          · obtain ⟨j, hj⟩ := inv.palette_in_lookup c h
            exact ⟨j, by rw [lookupKey_cons, if_neg hbc]; exact hj⟩
          · exact absurd (List.mem_singleton.mp h).symm hbc
      · rw [hpal2]
        exact hnodup2
      · intro c hc
        rw [hpal2] at hc
        exact hsub2 c hc
      · intro q2 c h
        have hold := inv.readback q2 c h
        rw [hpal2, chunk_value_congr (getOrInsert_chunks r1 b) q2.1 q2.2.1 q2.2.2]
        obtain ⟨hjlt, hjv⟩ := List.getElem?_eq_some.mp hold
        rw [List.getElem?_append_left hjlt]
        exact hold
    refine WriteInv_sbai _ done BL q b _ inv2 (by rw [hbbeq]; exact htarget) ?_
    rw [hpal2, hidx]
    exact List.getElem?_concat_length r1.palette b

/-- One `set_block` call extends the invariant by one write. -/
theorem WriteInv_step (r : Region) (done : List ((Int × Int × Int) × BlockState))
    (BL : List BlockState) (inv : WriteInv r done BL) (q : Int × Int × Int)
    (b : BlockState) (hbBL : b ∈ BL) (hBL : BL.dedup.length ≤ 65535) :
    WriteInv (r.set_block q.1 q.2.1 q.2.2 b) (done ++ [(q, b)]) BL := by
  rw [set_block_def]
  by_cases hin : r.is_in_region q.1 q.2.1 q.2.2
  · rw [if_pos hin]
    exact WriteInv_intern_sbai r done BL q b inv hin hbBL hBL
  · rw [if_neg hin]
    obtain ⟨hs1, hs2, hs3⟩ := inv.size_pos
    exact WriteInv_intern_sbai _ done BL q b
      (WriteInv_expand r q.1 q.2.1 q.2.2 done BL inv)
      (expand_bbox r q.1 q.2.1 q.2.2 hs1 hs2 hs3).2.2 hbBL hBL


/-- The invariant is preserved along a whole tail of writes. -/
theorem WriteInv_fold (BL : List BlockState) (hBL : BL.dedup.length ≤ 65535)
    (rest : List ((Int × Int × Int) × BlockState)) :
    ∀ (done : List ((Int × Int × Int) × BlockState)) (r : Region),
      WriteInv r done BL → (∀ w ∈ rest, w.2 ∈ BL) →
      WriteInv (applyWrites r rest) (done ++ rest) BL := by
  induction rest with
  | nil =>
    intro done r hr _
    rw [List.append_nil]
    exact hr
  | cons w t ih =>
    obtain ⟨wq, wb⟩ := w
    intro done r hr hmem
    have h1 := WriteInv_step r done BL hr wq wb
      (hmem (wq, wb) (List.mem_cons_self _ _)) hBL
    have h2 := ih (done ++ [(wq, wb)]) (r.set_block wq.1 wq.2.1 wq.2.2 wb) h1
      (fun w2 hw2 => hmem w2 (List.mem_cons_of_mem _ hw2))
    rw [show done ++ (wq, wb) :: t = (done ++ [(wq, wb)]) ++ t by
      rw [List.append_assoc, List.singleton_append]]
    exact h2

/-- C2 (amended): starting from a fresh region, for any sequence of
`set_block` calls at arbitrary signed coordinates whose distinct written
blocks number at most 65535, every previously written coordinate reads back
via `get_block` as the last block written there — in particular the
bounding-box expansion performed for out-of-bounds coordinates drops no chunk
data.  (The unrestricted claim is false: with 65536 distinct blocks the `u16`
palette-index cast wraps; see the counterexample.) -/
theorem C2_writes_read_back (name : String) (p0 s0 : Int × Int × Int)
    (ws : List ((Int × Int × Int) × BlockState))
    (hdistinct : (ws.map Prod.snd).dedup.length ≤ 65535)
    (q : Int × Int × Int) (b : BlockState)
    (hlast : lastWrite ws q = some b) :
    (applyWrites (Region.new name p0 s0) ws).get_block q.1 q.2.1 q.2.2 = some b := by
  have inv := WriteInv_fold (ws.map Prod.snd) hdistinct ws [] (Region.new name p0 s0)
    (WriteInv_new name p0 s0 _) (fun w hw => List.mem_map_of_mem Prod.snd hw)
  rw [List.nil_append] at inv
  have hqmem : ∃ w, w ∈ ws ∧ w.1 = q := by
    unfold lastWrite at hlast
    cases hf : List.find? (fun w => decide (w.1 = q)) ws.reverse with
    | none =>
      rw [hf] at hlast
      cases hlast
    | some w =>
      refine ⟨w, List.mem_reverse.mp (List.mem_of_find?_eq_some hf), ?_⟩
      have hp := List.find?_some hf
      exact of_decide_eq_true hp
  obtain ⟨w0, hw0, hw0q⟩ := hqmem
  have hin : (applyWrites (Region.new name p0 s0) ws).is_in_region q.1 q.2.1 q.2.2 := by
    have hc := inv.coords_in w0 hw0
    rw [hw0q] at hc
    exact hc
  rw [get_block_eq_palette_chunk_value _ q.1 q.2.1 q.2.2 hin]
  exact inv.readback q b hlast

/-- Concrete instance of `C2_writes_read_back`: two writes, the second out of
the initial 1x1x1 bounds, both read back. -/
theorem C2_witness :
    ((([((0, 0, 0), stone), ((3, 4, 5), stone)] :
        List ((Int × Int × Int) × BlockState)).map Prod.snd).dedup.length ≤ 65535) ∧
    lastWrite [((0, 0, 0), stone), ((3, 4, 5), stone)] (3, 4, 5) = some stone ∧
    (applyWrites (Region.new "W" (0, 0, 0) (1, 1, 1))
      [((0, 0, 0), stone), ((3, 4, 5), stone)]).get_block 3 4 5 = some stone :=
  ⟨by decide, by decide,
    C2_writes_read_back "W" (0, 0, 0) (1, 1, 1)
      [((0, 0, 0), stone), ((3, 4, 5), stone)] (by decide) (3, 4, 5) stone (by decide)⟩


/-! ## C2 counterexample: `u16` palette-index wrap after 65536 distinct blocks -/

/-- The `i`-th distinct non-air block: name `b` followed by `i` copies of
`a`. -/
def wrapBlock (i : Nat) : BlockState := ⟨⟨'b' :: List.replicate i 'a'⟩, []⟩

/-- `n` writes of pairwise-distinct blocks to the same coordinate. -/
def wrapWrites (n : Nat) : List ((Int × Int × Int) × BlockState) :=
  (List.range n).map fun i => ((0, 0, 0), wrapBlock i)

/-- Closed form of the region after the first `k` writes of `wrapWrites`. -/
def wrapState (k : Nat) : Region where
  name := "R"
  position := (0, 0, 0)
  size := (1, 1, 1)
  chunks := if k = 0 ∨ k = 65536 then [] else
    [((0, 0, 0), Function.update zeroChunk 0 (k % 65536))]
  palette := BlockState.air :: (List.range k).map wrapBlock
  palette_lookup :=
    ((List.range k).reverse.map fun i => (wrapBlock i, (i + 1) % 65536)) ++
      [(BlockState.air, 0)]

/-- The region between interning and storing during write `k`. -/
def wrapMid (k : Nat) : Region where
  name := "R"
  position := (0, 0, 0)
  size := (1, 1, 1)
  chunks := if k = 0 ∨ k = 65536 then [] else
    [((0, 0, 0), Function.update zeroChunk 0 (k % 65536))]
  palette := BlockState.air :: (List.range (k + 1)).map wrapBlock
  palette_lookup :=
    ((List.range (k + 1)).reverse.map fun i => (wrapBlock i, (i + 1) % 65536)) ++
      [(BlockState.air, 0)]

theorem wrapBlock_inj {i j : Nat} (h : wrapBlock i = wrapBlock j) : i = j := by
  unfold wrapBlock at h
  injection h with h1 h2
  injection h1 with h3
  injection h3 with h4 h5
  have h6 := congrArg List.length h5
  simpa using h6

theorem wrapBlock_ne_air (i : Nat) : wrapBlock i ≠ BlockState.air := by
  intro h
  have h2 := congrArg (fun b : BlockState => b.name.data.head?) h
  have h3 : some 'b' = some 'm' := h2
  exact absurd h3 (by decide)

theorem lookupKey_eq_none_of_forall {α β : Type} [DecidableEq α] (k : α)
    (l : List (α × β)) (h : ∀ p ∈ l, p.1 ≠ k) : lookupKey k l = none := by
  induction l with
  | nil => rfl
  | cons hd t ih =>
    obtain ⟨k2, v⟩ := hd
    rw [lookupKey_cons, if_neg (h (k2, v) (List.mem_cons_self _ _))]
    exact ih fun p hp => h p (List.mem_cons_of_mem _ hp)

/-- The fresh block of write `k` is missing from the lookup map. -/
theorem wrapLookup_none (k : Nat) :
    lookupKey (wrapBlock k) (wrapState k).palette_lookup = none := by
  apply lookupKey_eq_none_of_forall
  intro p hp
  rcases List.mem_append.mp hp with h | h
  · obtain ⟨i, hi, he⟩ := List.mem_map.mp h
    rw [← he]
    intro he2
    have hik : i < k := List.mem_range.mp (List.mem_reverse.mp hi)
    have := wrapBlock_inj he2
    omega
  · rw [List.mem_singleton.mp h]
    intro he
    exact wrapBlock_ne_air k he.symm

theorem region_ext (a b : Region) (h1 : a.name = b.name) (h2 : a.position = b.position)
    (h3 : a.size = b.size) (h4 : a.chunks = b.chunks) (h5 : a.palette = b.palette)
    (h6 : a.palette_lookup = b.palette_lookup) : a = b := by
  cases a
  cases b
  simp only [Region.mk.injEq]
  exact ⟨h1, h2, h3, h4, h5, h6⟩

theorem getOrInsert_name (r : Region) (b : BlockState) :
    (r.get_or_insert_in_palette b).2.name = r.name := by
  unfold Region.get_or_insert_in_palette
  cases lookupKey b r.palette_lookup <;> rfl

/-- `set_block_at_index` at the origin: non-air write into an empty chunk map
creates the chunk. -/
theorem sbai_origin_insert_empty (r : Region) (p : Nat) (hp : p ≠ 0)
    (hch : r.chunks = []) :
    r.set_block_at_index 0 0 0 p =
      { r with chunks := [((0, 0, 0), Function.update zeroChunk 0 p)] } := by
  rw [sbai_def, hch]
  rw [if_neg fun h => hp h.1, if_neg fun h => hp h.1]
  rfl

/-- Non-air write at the origin into the one stored chunk updates it in
place. -/
theorem sbai_origin_insert_one (r : Region) (c0 : Chunk) (p : Nat) (hp : p ≠ 0)
    (hch : r.chunks = [((0, 0, 0), c0)]) :
    r.set_block_at_index 0 0 0 p =
      { r with chunks := [((0, 0, 0), Function.update c0 0 p)] } := by
  rw [sbai_def, hch]
  rw [if_neg fun h => hp h.1, if_neg fun h => hp h.1]
  rfl

/-- An air write that zeroes the last nonzero entry evicts the chunk. -/
theorem sbai_origin_evict (r : Region) (c0 : Chunk)
    (hch : r.chunks = [((0, 0, 0), c0)])
    (hall : chunkAllZero (Function.update c0 0 0)) :
    r.set_block_at_index 0 0 0 0 = { r with chunks := [] } := by
  rw [sbai_def, hch]
  rw [if_neg fun h => Bool.noConfusion h.2, if_pos ⟨rfl, hall⟩]
  rfl


/-- Write `k` (`k ≤ 65535`) steps the closed-form state. -/
theorem wrapStep (k : Nat) (hk : k ≤ 65535) :
    (wrapState k).set_block 0 0 0 (wrapBlock k) = wrapState (k + 1) := by
  have hin : (wrapState k).is_in_region 0 0 0 := by
    show (BoundingBox.from_position_and_size (0, 0, 0) (1, 1, 1)).contains (0, 0, 0)
    decide
  have hlknone : lookupKey (wrapBlock k) (wrapState k).palette_lookup = none :=
    wrapLookup_none k
  have hpal : (wrapState k).palette.length = k + 1 := by
    show (BlockState.air :: (List.range k).map wrapBlock).length = k + 1
    rw [List.length_cons, List.length_map, List.length_range]
  have hgi : (wrapState k).get_or_insert_in_palette (wrapBlock k) =
      ((k + 1) % 65536, wrapMid k) := by
    refine Prod.ext_iff.mpr ⟨?_, ?_⟩
    · rw [getOrInsert_miss_fst (wrapState k) (wrapBlock k) hlknone, hpal]
    · refine region_ext _ _ ?_ ?_ ?_ ?_ ?_ ?_
      · rw [getOrInsert_name]
        rfl
      · rw [getOrInsert_position]
        rfl
      · rw [getOrInsert_size]
        rfl
      · rw [getOrInsert_chunks]
        rfl
      · rw [getOrInsert_miss_palette (wrapState k) (wrapBlock k) hlknone]
        show (BlockState.air :: (List.range k).map wrapBlock) ++ [wrapBlock k] =
          BlockState.air :: (List.range (k + 1)).map wrapBlock
        rw [List.cons_append, List.range_succ, List.map_append]
        rfl
      · rw [getOrInsert_miss_lookup (wrapState k) (wrapBlock k) hlknone, hpal]
        show (wrapBlock k, (k + 1) % 65536) ::
            (((List.range k).reverse.map fun i => (wrapBlock i, (i + 1) % 65536)) ++
              [(BlockState.air, 0)]) =
          ((List.range (k + 1)).reverse.map fun i => (wrapBlock i, (i + 1) % 65536)) ++
            [(BlockState.air, 0)]
        rw [List.range_succ, List.reverse_append, List.reverse_singleton,
          List.singleton_append, List.map_cons, List.cons_append]
  rw [set_block_def, if_pos hin, hgi]
  show (wrapMid k).set_block_at_index 0 0 0 ((k + 1) % 65536) = wrapState (k + 1)
  by_cases hke : k = 65535
  · subst hke
    rw [show (65535 + 1) % 65536 = 0 from by norm_num]
    have hch : (wrapMid 65535).chunks =
        [((0, 0, 0), Function.update zeroChunk 0 65535)] := rfl
    have hall : chunkAllZero (Function.update (Function.update zeroChunk 0 65535) 0 0) := by
      intro i hi
      rw [Function.update_idem]
      by_cases h0 : i = 0
      · rw [h0, Function.update_same]
      · rw [Function.update_noteq h0]
        rfl
    rw [sbai_origin_evict (wrapMid 65535) (Function.update zeroChunk 0 65535) hch hall]
    exact region_ext _ _ rfl rfl rfl rfl rfl rfl
  · have hm : (k + 1) % 65536 = k + 1 := Nat.mod_eq_of_lt (by omega)
    rw [hm]
    have hp0 : k + 1 ≠ 0 := Nat.succ_ne_zero k
    by_cases hk0 : k = 0
    · subst hk0
      have hch : (wrapMid 0).chunks = [] := rfl
      rw [sbai_origin_insert_empty (wrapMid 0) 1 hp0 hch]
      exact region_ext _ _ rfl rfl rfl rfl rfl rfl
    · have hch : (wrapMid k).chunks = [((0, 0, 0), Function.update zeroChunk 0 k)] := by
        show (if k = 0 ∨ k = 65536 then ([] : List ((Int × Int × Int) × Chunk)) else
          [((0, 0, 0), Function.update zeroChunk 0 (k % 65536))]) = _
        rw [if_neg (by omega), Nat.mod_eq_of_lt (by omega)]
      rw [sbai_origin_insert_one (wrapMid k) (Function.update zeroChunk 0 k) (k + 1)
        hp0 hch]
      refine region_ext _ _ rfl rfl rfl ?_ rfl rfl
      show [((0, 0, 0), Function.update (Function.update zeroChunk 0 k) 0 (k + 1))] =
        (wrapState (k + 1)).chunks
      rw [Function.update_idem]
      show _ = (if k + 1 = 0 ∨ k + 1 = 65536 then ([] : List ((Int × Int × Int) × Chunk))
        else [((0, 0, 0), Function.update zeroChunk 0 ((k + 1) % 65536))])
      rw [if_neg (by omega), hm]

/-- The whole write sequence evaluates to the closed-form state. -/
theorem wrapWrites_eval : ∀ n, n ≤ 65536 →
    applyWrites (Region.new "R" (0, 0, 0) (1, 1, 1)) (wrapWrites n) = wrapState n := by
  intro n
  induction n with
  | zero => intro _; rfl
  | succ k ih =>
    intro hn
    have hws : wrapWrites (k + 1) = wrapWrites k ++ [((0, 0, 0), wrapBlock k)] := by
      unfold wrapWrites
      rw [List.range_succ, List.map_append]
      rfl
    rw [hws]
    unfold applyWrites
    rw [List.foldl_append]
    show ((applyWrites (Region.new "R" (0, 0, 0) (1, 1, 1)) (wrapWrites k)).set_block
      0 0 0 (wrapBlock k)) = wrapState (k + 1)
    rw [ih (by omega)]
    exact wrapStep k (by omega)


/-- C2 counterexample: writing 65536 pairwise-distinct blocks at the same
coordinate of a fresh 1x1x1 region makes the `u16` palette-index cast wrap to
0 on the last write, so the last written block reads back as air, not as the
block that was written — the unrestricted claim fails. -/
theorem C2_counterexample :
    lastWrite (wrapWrites 65536) (0, 0, 0) = some (wrapBlock 65535) ∧
    (applyWrites (Region.new "R" (0, 0, 0) (1, 1, 1)) (wrapWrites 65536)).get_block
      0 0 0 = some BlockState.air ∧
    wrapBlock 65535 ≠ BlockState.air := by
  refine ⟨?_, ?_, wrapBlock_ne_air 65535⟩
  · have hws : wrapWrites 65536 = wrapWrites 65535 ++ [((0, 0, 0), wrapBlock 65535)] := by
      rw [show (65536 : Nat) = 65535 + 1 from rfl]
      unfold wrapWrites
      rw [List.range_succ, List.map_append]
      rfl
    rw [hws, lastWrite_append_self]
  · rw [wrapWrites_eval 65536 (le_refl _)]
    have hin : (wrapState 65536).is_in_region 0 0 0 := by
      show (BoundingBox.from_position_and_size (0, 0, 0) (1, 1, 1)).contains (0, 0, 0)
      decide
    rw [get_block_eq_palette_chunk_value _ 0 0 0 hin]
    have hcv : chunk_value (wrapState 65536) 0 0 0 = 0 := by
      rw [chunk_value_eq]
      rfl
    rw [hcv]
    show (BlockState.air :: (List.range 65536).map wrapBlock)[0]? = some BlockState.air
    rw [List.getElem?_cons_zero]


/-! ## C10: `count_blocks` vs the bounding-box scan -/

/-- The world coordinate stored at local index `i` of chunk `ck`. -/
def recompose (ck : Int × Int × Int) (i : Nat) : Int × Int × Int :=
  (ck.1 * 16 + (i % 16 : Nat), ck.2.1 * 16 + (i / 256 : Nat),
    ck.2.2 * 16 + (i / 16 % 16 : Nat))

/-- Non-zero entry count of one chunk (the summand of `count_blocks`). -/
def countNZ (c : Chunk) : Nat :=
  ((List.range CHUNK_SIZE).filter fun i => decide (c i ≠ 0)).length

/-- The number of in-box coordinates whose `get_block_index` is non-zero. -/
def boxNonzeroCount (r : Region) : Nat :=
  (r.get_bounding_box.boxCoords.filter fun q =>
    decide ((r.get_block_index q.1 q.2.1 q.2.2).getD 0 ≠ 0)).length

theorem count_blocks_eq_sum (r : Region) :
    r.count_blocks = (r.chunks.map fun kc => countNZ kc.2).sum := rfl

/-- Chunk decomposition followed by recomposition is the identity. -/
theorem gcc_recompose (x y z : Int) :
    recompose (Region.get_chunk_coords_and_index x y z).1
      (Region.get_chunk_coords_and_index x y z).2 = (x, y, z) := by
  unfold recompose Region.get_chunk_coords_and_index SUB
  simp only [Prod.mk.injEq]
  have hx1 : 0 ≤ x.emod 16 := Int.emod_nonneg x (by norm_num)
  have hx2 : x.emod 16 < 16 := Int.emod_lt_of_pos x (by norm_num)
  have hy1 : 0 ≤ y.emod 16 := Int.emod_nonneg y (by norm_num)
  have hy2 : y.emod 16 < 16 := Int.emod_lt_of_pos y (by norm_num)
  have hz1 : 0 ≤ z.emod 16 := Int.emod_nonneg z (by norm_num)
  have hz2 : z.emod 16 < 16 := Int.emod_lt_of_pos z (by norm_num)
  have hdx : 16 * (x.ediv 16) + x.emod 16 = x := Int.ediv_add_emod x 16
  have hdy : 16 * (y.ediv 16) + y.emod 16 = y := Int.ediv_add_emod y 16
  have hdz : 16 * (z.ediv 16) + z.emod 16 = z := Int.ediv_add_emod z 16
  refine ⟨by omega, by omega, by omega⟩

/-- Recomposition followed by chunk decomposition is the identity. -/
theorem recompose_gcc (ck : Int × Int × Int) (i : Nat) (hi : i < 4096) :
    Region.get_chunk_coords_and_index (recompose ck i).1 (recompose ck i).2.1
      (recompose ck i).2.2 = (ck, i) := by
  obtain ⟨c1, c2, c3⟩ := ck
  unfold recompose Region.get_chunk_coords_and_index SUB
  simp only [Prod.mk.injEq]
  have hu1 : 16 * ((c1 * 16 + ((i % 16 : Nat) : Int)).ediv 16) +
      (c1 * 16 + ((i % 16 : Nat) : Int)).emod 16 = c1 * 16 + ((i % 16 : Nat) : Int) :=
    Int.ediv_add_emod _ 16
  have hu2 : 0 ≤ (c1 * 16 + ((i % 16 : Nat) : Int)).emod 16 :=
    Int.emod_nonneg _ (by norm_num)
  have hu3 : (c1 * 16 + ((i % 16 : Nat) : Int)).emod 16 < 16 :=
    Int.emod_lt_of_pos _ (by norm_num)
  have hv1 : 16 * ((c2 * 16 + ((i / 256 : Nat) : Int)).ediv 16) +
      (c2 * 16 + ((i / 256 : Nat) : Int)).emod 16 = c2 * 16 + ((i / 256 : Nat) : Int) :=
    Int.ediv_add_emod _ 16
  have hv2 : 0 ≤ (c2 * 16 + ((i / 256 : Nat) : Int)).emod 16 :=
    Int.emod_nonneg _ (by norm_num)
  have hv3 : (c2 * 16 + ((i / 256 : Nat) : Int)).emod 16 < 16 :=
    Int.emod_lt_of_pos _ (by norm_num)
  have hw1 : 16 * ((c3 * 16 + ((i / 16 % 16 : Nat) : Int)).ediv 16) +
      (c3 * 16 + ((i / 16 % 16 : Nat) : Int)).emod 16 =
        c3 * 16 + ((i / 16 % 16 : Nat) : Int) :=
    Int.ediv_add_emod _ 16
  have hw2 : 0 ≤ (c3 * 16 + ((i / 16 % 16 : Nat) : Int)).emod 16 :=
    Int.emod_nonneg _ (by norm_num)
  have hw3 : (c3 * 16 + ((i / 16 % 16 : Nat) : Int)).emod 16 < 16 :=
    Int.emod_lt_of_pos _ (by norm_num)
  have e1 : (c1 * 16 + ((i % 16 : Nat) : Int)).ediv 16 = c1 ∧
      (c1 * 16 + ((i % 16 : Nat) : Int)).emod 16 = ((i % 16 : Nat) : Int) := by
    constructor <;> omega
  have e2 : (c2 * 16 + ((i / 256 : Nat) : Int)).ediv 16 = c2 ∧
      (c2 * 16 + ((i / 256 : Nat) : Int)).emod 16 = ((i / 256 : Nat) : Int) := by
    constructor <;> omega
  have e3 : (c3 * 16 + ((i / 16 % 16 : Nat) : Int)).ediv 16 = c3 ∧
      (c3 * 16 + ((i / 16 % 16 : Nat) : Int)).emod 16 = ((i / 16 % 16 : Nat) : Int) := by
    constructor <;> omega
  refine ⟨⟨e1.1, e2.1, e3.1⟩, ?_⟩
  rw [e1.2, e2.2, e3.2]
  omega

/-- For a box with ordered corners, membership in `boxCoords` is
containment. -/
theorem boxCoords_mem (B : BoundingBox) (h1 : B.min.1 ≤ B.max.1)
    (h2 : B.min.2.1 ≤ B.max.2.1) (h3 : B.min.2.2 ≤ B.max.2.2)
    (q : Int × Int × Int) : q ∈ B.boxCoords ↔ B.contains q := by
  obtain ⟨q1, q2, q3⟩ := q
  have hd1 : B.get_dimensions.1 = B.max.1 - B.min.1 + 1 := rfl
  have hd2 : B.get_dimensions.2.1 = B.max.2.1 - B.min.2.1 + 1 := rfl
  have hd3 : B.get_dimensions.2.2 = B.max.2.2 - B.min.2.2 + 1 := rfl
  unfold BoundingBox.boxCoords BoundingBox.contains
  rw [hd1, hd2, hd3]
  constructor
  · intro hmem
    obtain ⟨dy, hdy, rest⟩ := List.mem_flatMap.mp hmem
    obtain ⟨dz, hdz, rest2⟩ := List.mem_flatMap.mp rest
    obtain ⟨dx, hdx, he⟩ := List.mem_map.mp rest2
    rw [List.mem_range] at hdy hdz hdx
    simp only [Prod.mk.injEq] at he
    simp only [ge_iff_le]
    omega
  · intro hc
    simp only [ge_iff_le] at hc
    refine List.mem_flatMap.mpr ⟨(q2 - B.min.2.1).toNat, ?_, ?_⟩
    · rw [List.mem_range]
      omega
    refine List.mem_flatMap.mpr ⟨(q3 - B.min.2.2).toNat, ?_, ?_⟩
    · rw [List.mem_range]
      omega
    refine List.mem_map.mpr ⟨(q1 - B.min.1).toNat, ?_, ?_⟩
    · rw [List.mem_range]
      omega
    · simp only [Prod.mk.injEq]
      refine ⟨by omega, by omega, by omega⟩

theorem boxCoords_nodup (B : BoundingBox) : B.boxCoords.Nodup := by
  unfold BoundingBox.boxCoords
  rw [List.nodup_flatMap]
  constructor
  · intro dy _
    rw [List.nodup_flatMap]
    constructor
    · intro dz _
      refine List.Nodup.map ?_ (List.nodup_range _)
      intro a b he
      simp only [Prod.mk.injEq] at he
      omega
    · refine List.Pairwise.imp ?_ (List.pairwise_lt_range _)
      intro a b hab
      intro x hx hy
      obtain ⟨dx1, _, he1⟩ := List.mem_map.mp hx
      obtain ⟨dx2, _, he2⟩ := List.mem_map.mp hy
      rw [← he1] at he2
      simp only [Prod.mk.injEq] at he2
      omega
  · refine List.Pairwise.imp ?_ (List.pairwise_lt_range _)
    intro a b hab
    intro x hx hy
    obtain ⟨dz1, _, hx2⟩ := List.mem_flatMap.mp hx
    obtain ⟨dz2, _, hy2⟩ := List.mem_flatMap.mp hy
    obtain ⟨dx1, _, he1⟩ := List.mem_map.mp hx2
    obtain ⟨dx2, _, he2⟩ := List.mem_map.mp hy2
    rw [← he1] at he2
    simp only [Prod.mk.injEq] at he2
    omega

/-- Splitting a filter along two mutually exclusive predicates. -/
theorem length_filter_or_disjoint {α : Type} (l : List α) (p q : α → Bool)
    (h : ∀ a ∈ l, ¬(p a = true ∧ q a = true)) :
    (l.filter fun a => p a || q a).length = (l.filter p).length + (l.filter q).length := by
  induction l with
  | nil => rfl
  | cons a t ih =>
    have ih2 := ih fun b hb => h b (List.mem_cons_of_mem _ hb)
    cases hpa : p a <;> cases hqa : q a
    · rw [List.filter_cons_of_neg (by simp [hpa, hqa]),
        List.filter_cons_of_neg (by simp [hpa]),
        List.filter_cons_of_neg (by simp [hqa])]
      exact ih2
    · rw [List.filter_cons_of_pos (by simp [hpa, hqa]),
        List.filter_cons_of_neg (by simp [hpa]),
        List.filter_cons_of_pos (by simp [hqa])]
      simp only [List.length_cons]
      omega
    · rw [List.filter_cons_of_pos (by simp [hpa, hqa]),
        List.filter_cons_of_pos (by simp [hpa]),
        List.filter_cons_of_neg (by simp [hqa])]
      simp only [List.length_cons]
      omega
    · exact absurd ⟨hpa, hqa⟩ (h a (List.mem_cons_self _ _))

theorem lookupKey_some_mem {α β : Type} [DecidableEq α] {k : α} {v : β}
    {l : List (α × β)} (h : lookupKey k l = some v) : (k, v) ∈ l := by
  induction l with
  | nil => cases h
  | cons hd t ih =>
    obtain ⟨k2, v2⟩ := hd
    rw [lookupKey_cons] at h
    by_cases hk : k2 = k
    · rw [if_pos hk] at h
      injection h with h2
      rw [← hk, ← h2]
      exact List.mem_cons_self _ _
    · rw [if_neg hk] at h
      exact List.mem_cons_of_mem _ (ih h)

theorem mem_map_fst_insertKey {α β : Type} [DecidableEq α] (k : α) (v : β)
    (l : List (α × β)) (a : α) (ha : a ∈ (insertKey k v l).map Prod.fst) :
    a = k ∨ a ∈ l.map Prod.fst := by
  obtain ⟨p, hp, he⟩ := List.mem_map.mp ha
  rcases mem_insertKey k v l p hp with h | h
  · rw [h] at he
    exact Or.inl he.symm
  · exact Or.inr (he ▸ List.mem_map_of_mem Prod.fst h)

theorem map_fst_insertKey_nodup {α β : Type} [DecidableEq α] (k : α) (v : β)
    (l : List (α × β)) (h : (l.map Prod.fst).Nodup) :
    ((insertKey k v l).map Prod.fst).Nodup := by
  induction l with
  | nil => exact List.nodup_singleton k
  | cons hd t ih =>
    obtain ⟨k2, v2⟩ := hd
    rw [List.map_cons] at h
    have hk2 : k2 ∉ t.map Prod.fst := (List.nodup_cons.mp h).1
    have ht : (t.map Prod.fst).Nodup := (List.nodup_cons.mp h).2
    simp only [insertKey]
    by_cases hk : k2 = k
    · rw [if_pos hk, List.map_cons]
      rw [← hk]
      exact List.nodup_cons.mpr ⟨hk2, ht⟩
    · rw [if_neg hk, List.map_cons]
      refine List.nodup_cons.mpr ⟨?_, ih ht⟩
      intro hmem
      rcases mem_map_fst_insertKey k v t k2 hmem with h2 | h2
      · exact hk h2
      · exact hk2 h2


/-- Stored palette index of coordinate `q` in an explicit chunk list. -/
def cvL (L : List ((Int × Int × Int) × Chunk)) (q : Int × Int × Int) : Nat :=
  ((lookupKey (Region.get_chunk_coords_and_index q.1 q.2.1 q.2.2).1 L).getD zeroChunk)
    (Region.get_chunk_coords_and_index q.1 q.2.1 q.2.2).2

theorem chunk_value_eq_cvL (r : Region) (q : Int × Int × Int) :
    chunk_value r q.1 q.2.1 q.2.2 = cvL r.chunks q := chunk_value_eq r q.1 q.2.1 q.2.2

/-- One stored chunk contributes exactly its non-zero entry count to the box
scan. -/
theorem perChunk_count (B : BoundingBox) (h1 : B.min.1 ≤ B.max.1)
    (h2 : B.min.2.1 ≤ B.max.2.1) (h3 : B.min.2.2 ≤ B.max.2.2)
    (ck : Int × Int × Int) (c : Chunk)
    (hin : ∀ i, i < 4096 → c i ≠ 0 → B.contains (recompose ck i)) :
    (B.boxCoords.filter fun q =>
      decide ((Region.get_chunk_coords_and_index q.1 q.2.1 q.2.2).1 = ck) &&
        decide (c (Region.get_chunk_coords_and_index q.1 q.2.1 q.2.2).2 ≠ 0)).length =
      countNZ c := by
  unfold countNZ CHUNK_SIZE
  have hnd1 : (B.boxCoords.filter fun q =>
      decide ((Region.get_chunk_coords_and_index q.1 q.2.1 q.2.2).1 = ck) &&
        decide (c (Region.get_chunk_coords_and_index q.1 q.2.1 q.2.2).2 ≠ 0)).Nodup :=
    (boxCoords_nodup B).filter _
  have hnd2 : ((List.range 4096).filter fun i => decide (c i ≠ 0)).Nodup :=
    (List.nodup_range 4096).filter _
  rw [← List.toFinset_card_of_nodup hnd1, ← List.toFinset_card_of_nodup hnd2]
  refine Finset.card_bij
    (fun q _ => (Region.get_chunk_coords_and_index q.1 q.2.1 q.2.2).2) ?_ ?_ ?_
  · intro q hq
    rw [List.mem_toFinset, List.mem_filter] at hq
    have hp := hq.2
    rw [Bool.and_eq_true, decide_eq_true_iff, decide_eq_true_iff] at hp
    rw [List.mem_toFinset, List.mem_filter, List.mem_range]
    exact ⟨local_idx_lt q.1 q.2.1 q.2.2, decide_eq_true hp.2⟩
  · intro q1 hq1 q2 hq2 he
    rw [List.mem_toFinset, List.mem_filter] at hq1 hq2
    have hp1 := hq1.2
    have hp2 := hq2.2
    rw [Bool.and_eq_true, decide_eq_true_iff, decide_eq_true_iff] at hp1 hp2
    have hkeys : (Region.get_chunk_coords_and_index q1.1 q1.2.1 q1.2.2).1 =
        (Region.get_chunk_coords_and_index q2.1 q2.2.1 q2.2.2).1 := by
      rw [hp1.1, hp2.1]
    have hcomp := gcc_inj q2.1 q2.2.1 q2.2.2 q1.1 q1.2.1 q1.2.2 hkeys he
    exact Prod.ext_iff.mpr ⟨hcomp.1, Prod.ext_iff.mpr ⟨hcomp.2.1, hcomp.2.2⟩⟩
  · intro i hi
    rw [List.mem_toFinset, List.mem_filter, List.mem_range] at hi
    have hci : c i ≠ 0 := of_decide_eq_true hi.2
    have hrg := recompose_gcc ck i hi.1
    refine ⟨recompose ck i, ?_, ?_⟩
    · rw [List.mem_toFinset, List.mem_filter]
      refine ⟨(boxCoords_mem B h1 h2 h3 _).mpr (hin i hi.1 hci), ?_⟩
      rw [Bool.and_eq_true]
      constructor
      · rw [decide_eq_true_iff, hrg]
      · rw [decide_eq_true_iff, hrg]
        exact hci
    · show (Region.get_chunk_coords_and_index (recompose ck i).1 (recompose ck i).2.1
        (recompose ck i).2.2).2 = i
      rw [hrg]

/-- The box scan over an explicit chunk list with distinct keys is the sum of
the per-chunk non-zero counts. -/
theorem box_count_eq_sum (B : BoundingBox) (h1 : B.min.1 ≤ B.max.1)
    (h2 : B.min.2.1 ≤ B.max.2.1) (h3 : B.min.2.2 ≤ B.max.2.2) :
    ∀ L : List ((Int × Int × Int) × Chunk), (L.map Prod.fst).Nodup →
      (∀ kc ∈ L, ∀ i, i < 4096 → kc.2 i ≠ 0 → B.contains (recompose kc.1 i)) →
      (B.boxCoords.filter fun q => decide (cvL L q ≠ 0)).length =
        (L.map fun kc => countNZ kc.2).sum := by
  intro L
  induction L with
  | nil =>
    intro _ _
    have he : ∀ q ∈ B.boxCoords, (decide (cvL [] q ≠ 0)) = (false : Bool) := by
      intro q _
      simp [cvL, lookupKey, zeroChunk]
    rw [List.filter_congr he, List.filter_false]
    rfl
  | cons kc L2 ih =>
    intro hnd hin
    obtain ⟨ck, c⟩ := kc
    rw [List.map_cons] at hnd
    have hck : ∀ p ∈ L2, p.1 ≠ ck := by
      intro p hp he
      have hm := List.mem_map_of_mem Prod.fst hp
      rw [he] at hm
      exact (List.nodup_cons.mp hnd).1 hm
    have hlkn : lookupKey ck L2 = none := lookupKey_eq_none_of_forall ck L2 hck
    have hpt : ∀ q ∈ B.boxCoords, (decide (cvL ((ck, c) :: L2) q ≠ 0)) =
        ((decide ((Region.get_chunk_coords_and_index q.1 q.2.1 q.2.2).1 = ck) &&
          decide (c (Region.get_chunk_coords_and_index q.1 q.2.1 q.2.2).2 ≠ 0)) ||
         (!decide ((Region.get_chunk_coords_and_index q.1 q.2.1 q.2.2).1 = ck) &&
          decide (cvL L2 q ≠ 0))) := by
      intro q _
      by_cases hk : (Region.get_chunk_coords_and_index q.1 q.2.1 q.2.2).1 = ck
      · have hcv : cvL ((ck, c) :: L2) q =
            c (Region.get_chunk_coords_and_index q.1 q.2.1 q.2.2).2 := by
          unfold cvL
          rw [lookupKey_cons, if_pos hk.symm]
          rfl
        rw [hcv]
        simp [hk]
      · have hcv : cvL ((ck, c) :: L2) q = cvL L2 q := by
          unfold cvL
          rw [lookupKey_cons, if_neg fun he => hk he.symm]
        rw [hcv]
        simp [hk]
    have hexcl : ∀ q ∈ B.boxCoords,
        ¬(((decide ((Region.get_chunk_coords_and_index q.1 q.2.1 q.2.2).1 = ck) &&
            decide (c (Region.get_chunk_coords_and_index q.1 q.2.1 q.2.2).2 ≠ 0)) = true) ∧
          ((!decide ((Region.get_chunk_coords_and_index q.1 q.2.1 q.2.2).1 = ck) &&
            decide (cvL L2 q ≠ 0)) = true)) := by
      intro q _ hc
      obtain ⟨hp, hq2⟩ := hc
      rw [Bool.and_eq_true] at hp hq2
      rw [hp.1] at hq2
      simp at hq2
    have hpt2 : ∀ q ∈ B.boxCoords,
        ((!decide ((Region.get_chunk_coords_and_index q.1 q.2.1 q.2.2).1 = ck) &&
          decide (cvL L2 q ≠ 0))) = (decide (cvL L2 q ≠ 0)) := by
      intro q _
      by_cases hk : (Region.get_chunk_coords_and_index q.1 q.2.1 q.2.2).1 = ck
      · have hz : cvL L2 q = 0 := by
          unfold cvL
          rw [hk, hlkn]
          rfl
        simp [hk, hz]
      · simp [hk]
    rw [List.filter_congr hpt, length_filter_or_disjoint _ _ _ hexcl,
      perChunk_count B h1 h2 h3 ck c
        (fun i hi hci => hin (ck, c) (List.mem_cons_self _ _) i hi hci),
      List.filter_congr hpt2,
      ih (List.nodup_cons.mp hnd).2
        (fun kc2 hkc2 => hin kc2 (List.mem_cons_of_mem _ hkc2)),
      List.map_cons, List.sum_cons]


/-- Well-formedness invariant for the counting claim: positive size, distinct
chunk keys, and every populated chunk entry inside the bounding box. -/
structure RegionWf (r : Region) : Prop where
  size_pos : 1 ≤ r.size.1 ∧ 1 ≤ r.size.2.1 ∧ 1 ≤ r.size.2.2
  keys_nodup : (r.chunks.map Prod.fst).Nodup
  populated_in : ∀ kc ∈ r.chunks, ∀ i, i < 4096 → kc.2 i ≠ 0 →
    r.get_bounding_box.contains (recompose kc.1 i)

/-- For well-formed regions the chunk-sum count equals the box scan. -/
theorem RegionWf_count (r : Region) (wf : RegionWf r) :
    r.count_blocks = boxNonzeroCount r := by
  obtain ⟨hs1, hs2, hs3⟩ := wf.size_pos
  have hbb := bbox_of_normalized r hs1 hs2 hs3
  have h1 : r.get_bounding_box.min.1 ≤ r.get_bounding_box.max.1 := by
    rw [hbb]
    show r.position.1 ≤ r.position.1 + r.size.1 - 1
    omega
  have h2 : r.get_bounding_box.min.2.1 ≤ r.get_bounding_box.max.2.1 := by
    rw [hbb]
    show r.position.2.1 ≤ r.position.2.1 + r.size.2.1 - 1
    omega
  have h3 : r.get_bounding_box.min.2.2 ≤ r.get_bounding_box.max.2.2 := by
    rw [hbb]
    show r.position.2.2 ≤ r.position.2.2 + r.size.2.2 - 1
    omega
  unfold boxNonzeroCount
  have hpt : ∀ q ∈ r.get_bounding_box.boxCoords,
      (decide ((r.get_block_index q.1 q.2.1 q.2.2).getD 0 ≠ 0)) =
        (decide (cvL r.chunks q ≠ 0)) := by
    intro q hq
    have hcont : r.get_bounding_box.contains q := (boxCoords_mem _ h1 h2 h3 q).mp hq
    have hgbi : (r.get_block_index q.1 q.2.1 q.2.2).getD 0 =
        chunk_value r q.1 q.2.1 q.2.2 := by
      have hcont2 : r.is_in_region q.1 q.2.1 q.2.2 := hcont
      unfold Region.get_block_index chunk_value
      rw [if_pos hcont2]
      cases lookupKey (Region.get_chunk_coords_and_index q.1 q.2.1 q.2.2).1 r.chunks <;>
        rfl
    rw [hgbi, chunk_value_eq_cvL]
  rw [List.filter_congr hpt, count_blocks_eq_sum]
  exact (box_count_eq_sum _ h1 h2 h3 r.chunks wf.keys_nodup wf.populated_in).symm

theorem RegionWf_new (name : String) (p s : Int × Int × Int) :
    RegionWf (Region.new name p s) := by
  refine ⟨new_size_pos name p s, ?_, ?_⟩
  · show (([] : List ((Int × Int × Int) × Chunk)).map Prod.fst).Nodup
    exact List.nodup_nil
  · intro kc hkc
    cases hkc

/-- `set_block_at_index` at an in-box target preserves the invariant. -/
theorem RegionWf_sbai (r : Region) (x y z : Int) (p : Nat) (wf : RegionWf r)
    (htarget : r.get_bounding_box.contains (x, y, z)) :
    RegionWf (r.set_block_at_index x y z p) := by
  have hbb : (r.set_block_at_index x y z p).get_bounding_box = r.get_bounding_box := by
    unfold Region.get_bounding_box
    rw [sbai_position, sbai_size]
  refine ⟨?_, ?_, ?_⟩
  · rw [sbai_size]
    exact wf.size_pos
  · rw [sbai_def]
    split
    · exact wf.keys_nodup
    · split
      · rw [chunks_mk]
        exact wf.keys_nodup.sublist (List.Sublist.map _ (List.filter_sublist _))
      · rw [chunks_mk]
        exact map_fst_insertKey_nodup _ _ _ wf.keys_nodup
  · intro kc hkc i hi hnz
    rw [hbb]
    rw [sbai_def] at hkc
    split at hkc
    · exact wf.populated_in kc hkc i hi hnz
    · split at hkc
      · rw [chunks_mk] at hkc
        exact wf.populated_in kc (mem_eraseKey _ _ _ hkc) i hi hnz
      · rw [chunks_mk] at hkc
        rcases mem_insertKey _ _ _ _ hkc with he | he
        · by_cases hidx : i = (Region.get_chunk_coords_and_index x y z).2
          · rw [he, hidx]
            show r.get_bounding_box.contains
              (recompose (Region.get_chunk_coords_and_index x y z).1
                (Region.get_chunk_coords_and_index x y z).2)
            rw [gcc_recompose x y z]
            exact htarget
          · have hnz2 : Function.update
                ((lookupKey (Region.get_chunk_coords_and_index x y z).1 r.chunks).getD
                  zeroChunk)
                (Region.get_chunk_coords_and_index x y z).2 p i ≠ 0 := by
              rw [he] at hnz
              exact hnz
            rw [Function.update_noteq hidx] at hnz2
            cases hl : lookupKey (Region.get_chunk_coords_and_index x y z).1 r.chunks with
            | none =>
              rw [hl] at hnz2
              exact absurd rfl hnz2
            | some c0 =>
              rw [hl] at hnz2
              have hc := wf.populated_in ((Region.get_chunk_coords_and_index x y z).1, c0)
                (lookupKey_some_mem hl) i hi hnz2
              rw [he]
              exact hc
        · exact wf.populated_in kc he i hi hnz

/-- `expand_to_fit` preserves the invariant. -/
theorem RegionWf_expand (r : Region) (x y z : Int) (wf : RegionWf r) :
    RegionWf (r.expand_to_fit x y z) := by
  obtain ⟨hs1, hs2, hs3⟩ := wf.size_pos
  have he := expand_bbox r x y z hs1 hs2 hs3
  refine ⟨he.1, ?_, ?_⟩
  · rw [expand_to_fit_chunks]
    exact wf.keys_nodup
  · intro kc hkc i hi hnz
    rw [expand_to_fit_chunks] at hkc
    exact he.2.1 _ (wf.populated_in kc hkc i hi hnz)

/-- Palette interning preserves the invariant. -/
theorem RegionWf_intern (r : Region) (b : BlockState) (wf : RegionWf r) :
    RegionWf (r.get_or_insert_in_palette b).2 := by
  have hbb : (r.get_or_insert_in_palette b).2.get_bounding_box = r.get_bounding_box := by
    unfold Region.get_bounding_box
    rw [getOrInsert_position, getOrInsert_size]
  refine ⟨?_, ?_, ?_⟩
  · rw [getOrInsert_size]
    exact wf.size_pos
  · rw [getOrInsert_chunks]
    exact wf.keys_nodup
  · intro kc hkc i hi hnz
    rw [hbb]
    rw [getOrInsert_chunks] at hkc
    exact wf.populated_in kc hkc i hi hnz

/-- `set_block` preserves the invariant. -/
theorem RegionWf_set_block (r : Region) (x y z : Int) (b : BlockState)
    (wf : RegionWf r) : RegionWf (r.set_block x y z b) := by
  rw [set_block_def]
  by_cases hin : r.is_in_region x y z
  · rw [if_pos hin]
    refine RegionWf_sbai _ x y z _ (RegionWf_intern r b wf) ?_
    have hbb : (r.get_or_insert_in_palette b).2.get_bounding_box =
        r.get_bounding_box := by
      unfold Region.get_bounding_box
      rw [getOrInsert_position, getOrInsert_size]
    rw [hbb]
    exact hin
  · rw [if_neg hin]
    obtain ⟨hs1, hs2, hs3⟩ := wf.size_pos
    refine RegionWf_sbai _ x y z _
      (RegionWf_intern _ b (RegionWf_expand r x y z wf)) ?_
    have hbb : ((r.expand_to_fit x y z).get_or_insert_in_palette b).2.get_bounding_box =
        (r.expand_to_fit x y z).get_bounding_box := by
      unfold Region.get_bounding_box
      rw [getOrInsert_position, getOrInsert_size]
    rw [hbb]
    exact (expand_bbox r x y z hs1 hs2 hs3).2.2


theorem union_contains_left (b1 b2 : BoundingBox) (q : Int × Int × Int)
    (h : b1.contains q) : (b1.union b2).contains q := by
  obtain ⟨⟨a1, a2, a3⟩, ⟨a4, a5, a6⟩⟩ := b1
  obtain ⟨⟨c1, c2, c3⟩, ⟨c4, c5, c6⟩⟩ := b2
  obtain ⟨q1, q2, q3⟩ := q
  unfold BoundingBox.contains at h ⊢
  unfold BoundingBox.union
  simp only [ge_iff_le] at h ⊢
  omega

theorem union_contains_right (b1 b2 : BoundingBox) (q : Int × Int × Int)
    (h : b2.contains q) : (b1.union b2).contains q := by
  obtain ⟨⟨a1, a2, a3⟩, ⟨a4, a5, a6⟩⟩ := b1
  obtain ⟨⟨c1, c2, c3⟩, ⟨c4, c5, c6⟩⟩ := b2
  obtain ⟨q1, q2, q3⟩ := q
  unfold BoundingBox.contains at h ⊢
  unfold BoundingBox.union
  simp only [ge_iff_le] at h ⊢
  omega

theorem union_ordered (b1 b2 : BoundingBox)
    (ha1 : b1.min.1 ≤ b1.max.1) (ha2 : b1.min.2.1 ≤ b1.max.2.1)
    (ha3 : b1.min.2.2 ≤ b1.max.2.2) :
    (b1.union b2).min.1 ≤ (b1.union b2).max.1 ∧
      (b1.union b2).min.2.1 ≤ (b1.union b2).max.2.1 ∧
      (b1.union b2).min.2.2 ≤ (b1.union b2).max.2.2 := by
  obtain ⟨⟨a1, a2, a3⟩, ⟨a4, a5, a6⟩⟩ := b1
  obtain ⟨⟨c1, c2, c3⟩, ⟨c4, c5, c6⟩⟩ := b2
  unfold BoundingBox.union
  simp only at ha1 ha2 ha3 ⊢
  refine ⟨by omega, by omega, by omega⟩

/-- A box with ordered corners is recovered from its position and
dimensions. -/
theorem fromPS_min_dims (B : BoundingBox) (h1 : B.min.1 ≤ B.max.1)
    (h2 : B.min.2.1 ≤ B.max.2.1) (h3 : B.min.2.2 ≤ B.max.2.2) :
    BoundingBox.from_position_and_size B.min B.get_dimensions = B := by
  obtain ⟨⟨a1, a2, a3⟩, ⟨a4, a5, a6⟩⟩ := B
  simp only at h1 h2 h3
  have hm : ({ min := (a1, a2, a3), max := (a4, a5, a6) } : BoundingBox).min =
      (a1, a2, a3) := rfl
  have hd : ({ min := (a1, a2, a3), max := (a4, a5, a6) } : BoundingBox).get_dimensions =
      (a4 - a1 + 1, a5 - a2 + 1, a6 - a3 + 1) := rfl
  rw [hm, hd]
  rw [fromPS_pos _ _ (by show (1 : Int) ≤ a4 - a1 + 1; omega)
    (by show (1 : Int) ≤ a5 - a2 + 1; omega) (by show (1 : Int) ≤ a6 - a3 + 1; omega)]
  show BoundingBox.new (a1, a2, a3)
    (a1 + (a4 - a1 + 1) - 1, a2 + (a5 - a2 + 1) - 1, a3 + (a6 - a3 + 1) - 1) = _
  unfold BoundingBox.new
  simp only [BoundingBox.mk.injEq, Prod.mk.injEq]
  refine ⟨trivial, by omega, by omega, by omega⟩

theorem merge_palette_step_position (acc : Region × List (Nat × Nat))
    (p : Nat × BlockState) :
    (Region.merge_palette_step acc p).1.position = acc.1.position := by
  unfold Region.merge_palette_step
  cases lookupKey p.2 acc.1.palette_lookup <;> rfl

theorem merge_palette_step_size (acc : Region × List (Nat × Nat))
    (p : Nat × BlockState) :
    (Region.merge_palette_step acc p).1.size = acc.1.size := by
  unfold Region.merge_palette_step
  cases lookupKey p.2 acc.1.palette_lookup <;> rfl

theorem foldl_merge_palette_position (l : List (Nat × BlockState)) :
    ∀ acc : Region × List (Nat × Nat),
      (l.foldl Region.merge_palette_step acc).1.position = acc.1.position := by
  induction l with
  | nil => intro acc; rfl
  | cons p t ih =>
    intro acc
    rw [List.foldl_cons, ih, merge_palette_step_position]

theorem foldl_merge_palette_size (l : List (Nat × BlockState)) :
    ∀ acc : Region × List (Nat × Nat),
      (l.foldl Region.merge_palette_step acc).1.size = acc.1.size := by
  induction l with
  | nil => intro acc; rfl
  | cons p t ih =>
    intro acc
    rw [List.foldl_cons, ih, merge_palette_step_size]

/-- The block-copy loop of `merge` preserves the invariant when all written
coordinates lie in the accumulator's (fixed) bounding box. -/
theorem RegionWf_write_loop (other : Region) (m : List (Nat × Nat))
    (B0 : BoundingBox) :
    ∀ coords : List (Int × Int × Int), (∀ q ∈ coords, B0.contains q) →
      ∀ acc : Region, RegionWf acc → acc.get_bounding_box = B0 →
        RegionWf (coords.foldl (Region.merge_write_step other m) acc) := by
  intro coords
  induction coords with
  | nil =>
    intro _ acc hacc _
    exact hacc
  | cons q t ih =>
    intro hcs acc hacc hbbacc
    rw [List.foldl_cons]
    have hq := hcs q (List.mem_cons_self _ _)
    have hstep : RegionWf (Region.merge_write_step other m acc q) ∧
        (Region.merge_write_step other m acc q).get_bounding_box = B0 := by
      unfold Region.merge_write_step
      cases hgb : other.get_block_index q.1 q.2.1 q.2.2 with
      | none => exact ⟨hacc, hbbacc⟩
      | some idx =>
        have hb2 : (acc.set_block_at_index q.1 q.2.1 q.2.2
            ((lookupKey idx m).getD 0 % 65536)).get_bounding_box =
            acc.get_bounding_box := by
          unfold Region.get_bounding_box
          rw [sbai_position, sbai_size]
        by_cases hz : idx ≠ 0
        · refine ⟨?_, ?_⟩
          · show RegionWf (if idx ≠ 0 then acc.set_block_at_index q.1 q.2.1 q.2.2
              ((lookupKey idx m).getD 0 % 65536) else acc)
            rw [if_pos hz]
            refine RegionWf_sbai acc q.1 q.2.1 q.2.2 _ hacc ?_
            rw [hbbacc]
            exact hq
          · show (if idx ≠ 0 then acc.set_block_at_index q.1 q.2.1 q.2.2
              ((lookupKey idx m).getD 0 % 65536) else acc).get_bounding_box = B0
            rw [if_pos hz, hb2]
            exact hbbacc
        · refine ⟨?_, ?_⟩
          · show RegionWf (if idx ≠ 0 then acc.set_block_at_index q.1 q.2.1 q.2.2
              ((lookupKey idx m).getD 0 % 65536) else acc)
            rw [if_neg hz]
            exact hacc
          · show (if idx ≠ 0 then acc.set_block_at_index q.1 q.2.1 q.2.2
              ((lookupKey idx m).getD 0 % 65536) else acc).get_bounding_box = B0
            rw [if_neg hz]
            exact hbbacc
    exact ih (fun q2 hq2 => hcs q2 (List.mem_cons_of_mem _ hq2)) _ hstep.1 hstep.2

/-- `merge` of two well-formed regions is well-formed. -/
theorem RegionWf_merge (r other : Region) (wfr : RegionWf r)
    (wfo : RegionWf other) : RegionWf (r.merge other) := by
  obtain ⟨hr1, hr2, hr3⟩ := wfr.size_pos
  obtain ⟨ho1, ho2, ho3⟩ := wfo.size_pos
  have hbr := bbox_of_normalized r hr1 hr2 hr3
  have hbo := bbox_of_normalized other ho1 ho2 ho3
  have hra1 : r.get_bounding_box.min.1 ≤ r.get_bounding_box.max.1 := by
    rw [hbr]
    show r.position.1 ≤ r.position.1 + r.size.1 - 1
    omega
  have hra2 : r.get_bounding_box.min.2.1 ≤ r.get_bounding_box.max.2.1 := by
    rw [hbr]
    show r.position.2.1 ≤ r.position.2.1 + r.size.2.1 - 1
    omega
  have hra3 : r.get_bounding_box.min.2.2 ≤ r.get_bounding_box.max.2.2 := by
    rw [hbr]
    show r.position.2.2 ≤ r.position.2.2 + r.size.2.2 - 1
    omega
  have hoa1 : other.get_bounding_box.min.1 ≤ other.get_bounding_box.max.1 := by
    rw [hbo]
    show other.position.1 ≤ other.position.1 + other.size.1 - 1
    omega
  have hoa2 : other.get_bounding_box.min.2.1 ≤ other.get_bounding_box.max.2.1 := by
    rw [hbo]
    show other.position.2.1 ≤ other.position.2.1 + other.size.2.1 - 1
    omega
  have hoa3 : other.get_bounding_box.min.2.2 ≤ other.get_bounding_box.max.2.2 := by
    rw [hbo]
    show other.position.2.2 ≤ other.position.2.2 + other.size.2.2 - 1
    omega
  have hBo := union_ordered r.get_bounding_box other.get_bounding_box hra1 hra2 hra3
  have hbbr1 : ({ r with
      position := (r.get_bounding_box.union other.get_bounding_box).min
      size := (r.get_bounding_box.union other.get_bounding_box).get_dimensions } :
        Region).get_bounding_box =
      r.get_bounding_box.union other.get_bounding_box := by
    unfold Region.get_bounding_box
    exact fromPS_min_dims _ hBo.1 hBo.2.1 hBo.2.2
  have hwf1 : RegionWf { r with
      position := (r.get_bounding_box.union other.get_bounding_box).min
      size := (r.get_bounding_box.union other.get_bounding_box).get_dimensions } := by
    refine ⟨?_, wfr.keys_nodup, ?_⟩
    · show 1 ≤ (r.get_bounding_box.union other.get_bounding_box).get_dimensions.1 ∧
        1 ≤ (r.get_bounding_box.union other.get_bounding_box).get_dimensions.2.1 ∧
        1 ≤ (r.get_bounding_box.union other.get_bounding_box).get_dimensions.2.2
      have e1 : (r.get_bounding_box.union other.get_bounding_box).get_dimensions.1 =
          (r.get_bounding_box.union other.get_bounding_box).max.1 -
            (r.get_bounding_box.union other.get_bounding_box).min.1 + 1 := rfl
      have e2 : (r.get_bounding_box.union other.get_bounding_box).get_dimensions.2.1 =
          (r.get_bounding_box.union other.get_bounding_box).max.2.1 -
            (r.get_bounding_box.union other.get_bounding_box).min.2.1 + 1 := rfl
      have e3 : (r.get_bounding_box.union other.get_bounding_box).get_dimensions.2.2 =
          (r.get_bounding_box.union other.get_bounding_box).max.2.2 -
            (r.get_bounding_box.union other.get_bounding_box).min.2.2 + 1 := rfl
      refine ⟨by omega, by omega, by omega⟩
    · intro kc hkc i hi hnz
      rw [hbbr1]
      exact union_contains_left _ _ _ (wfr.populated_in kc hkc i hi hnz)
  have hwfpm : RegionWf (Region.merge_palette { r with
      position := (r.get_bounding_box.union other.get_bounding_box).min
      size := (r.get_bounding_box.union other.get_bounding_box).get_dimensions }
        other.palette).1 := by
    unfold Region.merge_palette
    refine ⟨?_, ?_, ?_⟩
    · rw [foldl_merge_palette_size]
      exact hwf1.size_pos
    · rw [foldl_merge_palette_chunks]
      exact hwf1.keys_nodup
    · intro kc hkc i hi hnz
      rw [foldl_merge_palette_chunks] at hkc
      have hbbpm : ((other.palette.enum.foldl Region.merge_palette_step
          ({ r with
              position := (r.get_bounding_box.union other.get_bounding_box).min
              size := (r.get_bounding_box.union
                other.get_bounding_box).get_dimensions }, [])).1).get_bounding_box =
          r.get_bounding_box.union other.get_bounding_box := by
        unfold Region.get_bounding_box
        rw [foldl_merge_palette_position, foldl_merge_palette_size]
        show BoundingBox.from_position_and_size
          (r.get_bounding_box.union other.get_bounding_box).min
          (r.get_bounding_box.union other.get_bounding_box).get_dimensions = _
        exact fromPS_min_dims _ hBo.1 hBo.2.1 hBo.2.2
      rw [hbbpm]
      exact union_contains_left _ _ _ (wfr.populated_in kc hkc i hi hnz)
  rw [merge_def]
  refine RegionWf_write_loop other _ (r.get_bounding_box.union other.get_bounding_box)
    other.get_bounding_box.boxCoords ?_ _ hwfpm ?_
  · intro q hq
    exact union_contains_right _ _ _ ((boxCoords_mem _ hoa1 hoa2 hoa3 q).mp hq)
  · unfold Region.merge_palette Region.get_bounding_box
    rw [foldl_merge_palette_position, foldl_merge_palette_size]
    show BoundingBox.from_position_and_size
      (r.get_bounding_box.union other.get_bounding_box).min
      (r.get_bounding_box.union other.get_bounding_box).get_dimensions = _
    exact fromPS_min_dims _ hBo.1 hBo.2.1 hBo.2.2


/-- Regions reachable from `Region::new` by `set_block` and `merge`. -/
inductive Reachable : Region → Prop where
  | new : ∀ (name : String) (p s : Int × Int × Int), Reachable (Region.new name p s)
  | step_set : ∀ (r : Region) (x y z : Int) (b : BlockState), Reachable r →
      Reachable (r.set_block x y z b)
  | step_merge : ∀ (r other : Region), Reachable r → Reachable other →
      Reachable (r.merge other)

theorem Reachable_wf (r : Region) (h : Reachable r) : RegionWf r := by
  induction h with
  | new name p s => exact RegionWf_new name p s
  | step_set r x y z b hr ih => exact RegionWf_set_block r x y z b ih
  | step_merge r other hr ho ihr iho => exact RegionWf_merge r other ihr iho

/-- C10: for every region reachable from `Region::new` by any sequence of
`set_block` and `merge` operations, `count_blocks` (the sum of non-zero entry
counts of the stored chunks) equals the number of coordinates inside the
region's bounding box whose `get_block_index` is non-zero, and every
populated chunk entry lies inside the bounding box. -/
theorem C10_count_blocks_refinement (r : Region) (h : Reachable r) :
    r.count_blocks = boxNonzeroCount r ∧
      ∀ kc ∈ r.chunks, ∀ i, i < 4096 → kc.2 i ≠ 0 →
        r.get_bounding_box.contains (recompose kc.1 i) := by
  have wf := Reachable_wf r h
  exact ⟨RegionWf_count r wf, wf.populated_in⟩

/-- Concrete instance of `C10_count_blocks_refinement`: one `set_block` then a
`merge` starting from fresh regions. -/
theorem C10_witness :
    Region.count_blocks (((Region.new "C" (0, 0, 0) (2, 2, 2)).set_block 0 0 0
        stone).merge (Region.new "D" (4, 4, 4) (1, 1, 1))) =
      boxNonzeroCount (((Region.new "C" (0, 0, 0) (2, 2, 2)).set_block 0 0 0
        stone).merge (Region.new "D" (4, 4, 4) (1, 1, 1))) :=
  (C10_count_blocks_refinement _
    (Reachable.step_merge _ _
      (Reachable.step_set _ 0 0 0 stone (Reachable.new "C" (0, 0, 0) (2, 2, 2)))
      (Reachable.new "D" (4, 4, 4) (1, 1, 1)))).1


/-! ## C3: packed block states.

`create_packed_block_states` writes `bits_per_block`-bit fields into an array
of 64-bit words (`Vec<i64>`); the array is modeled as a function `Nat → Nat`
whose entries are kept below `2^64` by explicit `% 2^64`, materialized as
`(List.range expected_len).map`.  `calculate_bits_per_block` computes
`max(ceil(log2(palette.len())), 2)`; for palette length `p ≥ 1` the `f64`
expression `ceil(log2 p)` is `Nat.clog 2 p`.  Rust's panicking array indexing
in `unpack_block_states` is modeled by `List.getD _ _ 0`; the claims only
exercise in-bounds indices. -/

/-- One iteration of the packing loop: OR the masked value `p.2` of position
`p.1` into one or two words. -/
def packStep (b : Nat) (acc : Nat → Nat) (p : Nat × Nat) : Nat → Nat :=
  let bit_index := p.1 * b
  let start := bit_index / 64
  let endi := (bit_index + b - 1) / 64
  let off := bit_index % 64
  if start = endi then
    Function.update acc start ((acc start ||| (p.2 <<< off)) % 2 ^ 64)
  else
    Function.update
      (Function.update acc start ((acc start ||| (p.2 <<< off)) % 2 ^ 64))
      endi ((acc endi ||| (p.2 >>> (64 - off))) % 2 ^ 64)

/-- The packed value of a digit list in base `2^b`. -/
def bigN (b : Nat) : List Nat → Nat
  | [] => 0
  | v :: t => v + 2 ^ b * bigN b t

theorem lor_eq_add_of_lt (a c k : Nat) (h : a < 2 ^ k) : a ||| c * 2 ^ k = a + c * 2 ^ k := by
  calc a ||| c * 2 ^ k = 2 ^ k * c ||| a := by rw [Nat.lor_comm, Nat.mul_comm]
    _ = 2 ^ k * c + a := (Nat.mul_add_lt_is_or h c).symm
    _ = a + c * 2 ^ k := by ring

theorem mod_mul_decomp (x m n : Nat) (hm : 0 < m) (hn : 0 < n) :
    x % (m * n) = x % m + m * (x / m % n) := by
  have hx : x = (x % m + m * (x / m % n)) + (m * n) * (x / m / n) := by
    calc x = m * (x / m) + x % m := (Nat.div_add_mod x m).symm
      _ = m * (n * (x / m / n) + x / m % n) + x % m := by rw [Nat.div_add_mod (x / m) n]
      _ = (x % m + m * (x / m % n)) + (m * n) * (x / m / n) := by ring
  have hA : x % m + m * (x / m % n) < m * n := by
    have h3 : x % m < m := Nat.mod_lt _ hm
    have h4 : x / m % n < n := Nat.mod_lt _ hn
    have h5 : x % m + m * (x / m % n) < m * (x / m % n + 1) := by
      have : m * (x / m % n + 1) = m * (x / m % n) + m := by ring
      omega
    have h6 : m * (x / m % n + 1) ≤ m * n := Nat.mul_le_mul_left m (by omega)
    omega
  nth_rewrite 1 [hx]
  rw [Nat.add_mul_mod_self_left, Nat.mod_eq_of_lt hA]

theorem mod_mul_div (x m n : Nat) (hm : 0 < m) (hn : 0 < n) :
    x % (m * n) / m = x / m % n := by
  rw [mod_mul_decomp x m n hm hn, Nat.add_mul_div_left _ _ hm,
    Nat.div_eq_of_lt (Nat.mod_lt _ hm), Nat.zero_add]

theorem pack_below (N v E j : Nat) (hj : 64 * (j + 1) ≤ E) :
    (N + v * 2 ^ E) / 2 ^ (64 * j) % 2 ^ 64 = N / 2 ^ (64 * j) % 2 ^ 64 := by
  have hee : E - 64 * (j + 1) + (64 + 64 * j) = E := by omega
  have he : v * 2 ^ E = v * 2 ^ (E - 64 * (j + 1)) * 2 ^ 64 * 2 ^ (64 * j) := by
    rw [Nat.mul_assoc, Nat.mul_assoc, ← pow_add, ← pow_add, hee]
  rw [he, Nat.add_mul_div_right _ _ (pow_pos (by norm_num) _)]
  exact Nat.add_mul_mod_self_right _ _ _

theorem pack_above (M j : Nat) (hM : M < 2 ^ (64 * j)) :
    M / 2 ^ (64 * j) % 2 ^ 64 = 0 := by
  rw [Nat.div_eq_of_lt hM]
  rfl

theorem pack_word_s (N v s off : Nat) (hoff : off < 64)
    (hNlt : N < 2 ^ (64 * s) * 2 ^ off) :
    (N / 2 ^ (64 * s) % 2 ^ 64 ||| v <<< off) % 2 ^ 64 =
      (N + v * (2 ^ (64 * s) * 2 ^ off)) / 2 ^ (64 * s) % 2 ^ 64 := by
  have hA : N / 2 ^ (64 * s) < 2 ^ off := Nat.div_lt_of_lt_mul hNlt
  have hA64 : N / 2 ^ (64 * s) % 2 ^ 64 = N / 2 ^ (64 * s) :=
    Nat.mod_eq_of_lt (lt_of_lt_of_le hA (Nat.pow_le_pow_right (by norm_num) (by omega)))
  rw [hA64, Nat.shiftLeft_eq, lor_eq_add_of_lt _ _ _ hA]
  rw [show v * (2 ^ (64 * s) * 2 ^ off) = v * 2 ^ off * 2 ^ (64 * s) by ring]
  rw [Nat.add_mul_div_right _ _ (pow_pos (by norm_num) _)]

theorem pack_word_hi (N v E c : Nat) (hN : N < 2 ^ E) :
    (N + v * 2 ^ E) / (2 ^ E * 2 ^ c) % 2 ^ 64 = v / 2 ^ c % 2 ^ 64 := by
  have hsplit : N + v * 2 ^ E =
      (N + v % 2 ^ c * 2 ^ E) + v / 2 ^ c * (2 ^ E * 2 ^ c) := by
    have hd : 2 ^ c * (v / 2 ^ c) + v % 2 ^ c = v := Nat.div_add_mod v (2 ^ c)
    calc N + v * 2 ^ E = N + (2 ^ c * (v / 2 ^ c) + v % 2 ^ c) * 2 ^ E := by rw [hd]
      _ = (N + v % 2 ^ c * 2 ^ E) + v / 2 ^ c * (2 ^ E * 2 ^ c) := by ring
  have hX : N + v % 2 ^ c * 2 ^ E < 2 ^ E * 2 ^ c := by
    have h1 : v % 2 ^ c < 2 ^ c := Nat.mod_lt _ (pow_pos (by norm_num) c)
    have h2 : N + v % 2 ^ c * 2 ^ E < 2 ^ E * (v % 2 ^ c + 1) := by
      have : 2 ^ E * (v % 2 ^ c + 1) = v % 2 ^ c * 2 ^ E + 2 ^ E := by ring
      omega
    have h3 : 2 ^ E * (v % 2 ^ c + 1) ≤ 2 ^ E * 2 ^ c :=
      Nat.mul_le_mul_left _ (by omega)
    omega
  rw [hsplit, Nat.add_mul_div_right _ _ (Nat.mul_pos (pow_pos (by norm_num) E)
    (pow_pos (by norm_num) c)), Nat.div_eq_of_lt hX, Nat.zero_add]


theorem packStep_def (b : Nat) (acc : Nat → Nat) (k v : Nat) :
    packStep b acc (k, v) =
      if k * b / 64 = (k * b + b - 1) / 64 then
        Function.update acc (k * b / 64)
          ((acc (k * b / 64) ||| v <<< (k * b % 64)) % 2 ^ 64)
      else
        Function.update
          (Function.update acc (k * b / 64)
            ((acc (k * b / 64) ||| v <<< (k * b % 64)) % 2 ^ 64))
          ((k * b + b - 1) / 64)
          ((acc ((k * b + b - 1) / 64) ||| v >>> (64 - k * b % 64)) % 2 ^ 64) := rfl

/-- The packing step turns the word image of `N` into the word image of
`N + v * 2^(k*b)`. -/
theorem packStep_spec (b : Nat) (hb1 : 1 ≤ b) (hb64 : b ≤ 64) (k v : Nat)
    (hv : v < 2 ^ b) (acc : Nat → Nat) (N : Nat) (hN : N < 2 ^ (k * b))
    (hacc : ∀ j, acc j = N / 2 ^ (64 * j) % 2 ^ 64) (j : Nat) :
    packStep b acc (k, v) j = (N + v * 2 ^ (k * b)) / 2 ^ (64 * j) % 2 ^ 64 := by
  have hso : 64 * (k * b / 64) + k * b % 64 = k * b := Nat.div_add_mod (k * b) 64
  have hofflt : k * b % 64 < 64 := Nat.mod_lt _ (by norm_num)
  have hNlt : N < 2 ^ (64 * (k * b / 64)) * 2 ^ (k * b % 64) := by
    rw [← pow_add, hso]
    exact hN
  have hsum : N + v * 2 ^ (k * b) < 2 ^ (k * b) * 2 ^ b := by
    have h2 : N + v * 2 ^ (k * b) < 2 ^ (k * b) * (v + 1) := by
      have h3 : 2 ^ (k * b) * (v + 1) = v * 2 ^ (k * b) + 2 ^ (k * b) := by ring
      omega
    exact lt_of_lt_of_le h2 (Nat.mul_le_mul_left _ (by omega))
  have hsum2 : N + v * 2 ^ (k * b) < 2 ^ (k * b + b) := by
    rw [pow_add]
    exact hsum
  rw [packStep_def]
  by_cases hse : k * b / 64 = (k * b + b - 1) / 64
  · rw [if_pos hse]
    by_cases hj : j = k * b / 64
    · rw [hj, Function.update_same, hacc]
      have hpw := pack_word_s N v (k * b / 64) (k * b % 64) hofflt hNlt
      rw [show (2 : Nat) ^ (64 * (k * b / 64)) * 2 ^ (k * b % 64) = 2 ^ (k * b) from by
        rw [← pow_add, hso]] at hpw
      exact hpw
    · rw [Function.update_noteq hj, hacc]
      rcases Nat.lt_or_ge j (k * b / 64) with hlt | hge
      · exact (pack_below N v (k * b) j (by omega)).symm
      · have hjgt : k * b / 64 < j := lt_of_le_of_ne hge (Ne.symm hj)
        have hle : k * b % 64 + b ≤ 64 := by omega
        have h4 : (2 : Nat) ^ (k * b + b) ≤ 2 ^ (64 * j) :=
          Nat.pow_le_pow_right (by norm_num) (by omega)
        rw [pack_above N j (by omega), pack_above (N + v * 2 ^ (k * b)) j (by omega)]
  · rw [if_neg hse]
    have hgt : 64 < k * b % 64 + b := by omega
    have he1 : (k * b + b - 1) / 64 = k * b / 64 + 1 := by omega
    rw [he1]
    by_cases hj2 : j = k * b / 64 + 1
    · rw [hj2, Function.update_same, hacc]
      have hNs1 : N < 2 ^ (64 * (k * b / 64 + 1)) := by
        have h5 : (2 : Nat) ^ (k * b) ≤ 2 ^ (64 * (k * b / 64 + 1)) :=
          Nat.pow_le_pow_right (by norm_num) (by omega)
        omega
      rw [pack_above N (k * b / 64 + 1) hNs1, Nat.zero_or, Nat.shiftRight_eq_div_pow]
      have hE : 64 * (k * b / 64 + 1) = k * b + (64 - k * b % 64) := by omega
      rw [hE, pow_add]
      exact (pack_word_hi N v (k * b) (64 - k * b % 64) hN).symm
    · rw [Function.update_noteq hj2]
      by_cases hj : j = k * b / 64
      · rw [hj, Function.update_same, hacc]
        have hpw := pack_word_s N v (k * b / 64) (k * b % 64) hofflt hNlt
        rw [show (2 : Nat) ^ (64 * (k * b / 64)) * 2 ^ (k * b % 64) = 2 ^ (k * b) from by
          rw [← pow_add, hso]] at hpw
        exact hpw
      · rw [Function.update_noteq hj, hacc]
        rcases Nat.lt_or_ge j (k * b / 64) with hlt | hge
        · exact (pack_below N v (k * b) j (by omega)).symm
        · have hjgt : k * b / 64 + 1 < j := by
            rcases Nat.lt_or_ge (k * b / 64 + 1) j with h | h
            · exact h
            · exact absurd (by omega : j = k * b / 64 ∨ j = k * b / 64 + 1)
                (by rintro (h | h) <;> [exact hj h; exact hj2 h])
          have h4 : (2 : Nat) ^ (k * b + b) ≤ 2 ^ (64 * j) :=
            Nat.pow_le_pow_right (by norm_num) (by omega)
          rw [pack_above N j (by omega), pack_above (N + v * 2 ^ (k * b)) j (by omega)]


/-- Folding the packing step over enumerated digits writes the base-`2^b`
value into the 64-bit words. -/
theorem pack_fold (b : Nat) (hb1 : 1 ≤ b) (hb64 : b ≤ 64) :
    ∀ (vs : List Nat) (k : Nat) (acc : Nat → Nat) (N : Nat),
      (∀ v ∈ vs, v < 2 ^ b) → N < 2 ^ (k * b) →
      (∀ j, acc j = N / 2 ^ (64 * j) % 2 ^ 64) →
      ∀ j, (List.foldl (packStep b) acc (vs.enumFrom k)) j =
        (N + 2 ^ (k * b) * bigN b vs) / 2 ^ (64 * j) % 2 ^ 64 := by
  intro vs
  induction vs with
  | nil =>
    intro k acc N _ _ hacc j
    simp only [List.enumFrom_nil, List.foldl_nil, bigN, Nat.mul_zero, Nat.add_zero]
    exact hacc j
  | cons v t ih =>
    intro k acc N hv hN hacc j
    rw [List.enumFrom_cons, List.foldl_cons]
    have hvv : v < 2 ^ b := hv v (List.mem_cons_self _ _)
    have hN2 : N + v * 2 ^ (k * b) < 2 ^ ((k + 1) * b) := by
      have h2 : N + v * 2 ^ (k * b) < 2 ^ (k * b) * (v + 1) := by
        have h3 : 2 ^ (k * b) * (v + 1) = v * 2 ^ (k * b) + 2 ^ (k * b) := by ring
        omega
      have h4 : 2 ^ (k * b) * (v + 1) ≤ 2 ^ (k * b) * 2 ^ b :=
        Nat.mul_le_mul_left _ (by omega)
      have h5 : (2 : Nat) ^ (k * b) * 2 ^ b = 2 ^ ((k + 1) * b) := by
        rw [← pow_add]
        congr 1
        ring
      omega
    have hstep := packStep_spec b hb1 hb64 k v hvv acc N hN hacc
    have hrec := ih (k + 1) (packStep b acc (k, v)) (N + v * 2 ^ (k * b))
      (fun w hw => hv w (List.mem_cons_of_mem _ hw)) hN2 hstep j
    rw [hrec]
    congr 2
    show N + v * 2 ^ (k * b) + 2 ^ ((k + 1) * b) * bigN b t =
      N + 2 ^ (k * b) * (v + 2 ^ b * bigN b t)
    rw [show (k + 1) * b = k * b + b from by ring, pow_add]
    ring

/-- Digit extraction from the base-`2^b` value. -/
theorem bigN_digit (b : Nat) :
    ∀ vs : List Nat, (∀ v ∈ vs, v < 2 ^ b) →
      ∀ k, k < vs.length → bigN b vs / 2 ^ (k * b) % 2 ^ b = vs.getD k 0 := by
  intro vs
  induction vs with
  | nil =>
    intro _ k hk
    exact absurd hk (Nat.not_lt_zero k)
  | cons v t ih =>
    intro hv k hk
    cases k with
    | zero =>
      show (v + 2 ^ b * bigN b t) / 2 ^ (0 * b) % 2 ^ b = v
      rw [Nat.zero_mul, pow_zero, Nat.div_one, Nat.add_mul_mod_self_left]
      exact Nat.mod_eq_of_lt (hv v (List.mem_cons_self _ _))
    | succ k2 =>
      show (v + 2 ^ b * bigN b t) / 2 ^ ((k2 + 1) * b) % 2 ^ b = t.getD k2 0
      rw [show (k2 + 1) * b = b + k2 * b from by ring, pow_add,
        ← Nat.div_div_eq_div_mul]
      have hdv : (v + 2 ^ b * bigN b t) / 2 ^ b = bigN b t := by
        rw [Nat.add_mul_div_left _ _ (pow_pos (by norm_num) b),
          Nat.div_eq_of_lt (hv v (List.mem_cons_self _ _)), Nat.zero_add]
      rw [hdv]
      exact ih (fun w hw => hv w (List.mem_cons_of_mem _ hw)) k2 (by simpa using hk)

/-- Single-word extraction from the word image. -/
theorem extract_single (b M s off : Nat) (hoff : off < 64) (hle : off + b ≤ 64) :
    ((M / 2 ^ (64 * s) % 2 ^ 64) >>> off) &&& (2 ^ b - 1) =
      M / 2 ^ (64 * s + off) % 2 ^ b := by
  rw [Nat.shiftRight_eq_div_pow, Nat.and_pow_two_sub_one_eq_mod]
  rw [show (2 : Nat) ^ 64 = 2 ^ off * 2 ^ (64 - off) from by rw [← pow_add]; congr 1; omega]
  rw [mod_mul_div _ _ _ (pow_pos (by norm_num) _) (pow_pos (by norm_num) _)]
  rw [Nat.div_div_eq_div_mul, ← pow_add]
  exact Nat.mod_mod_of_dvd _ (pow_dvd_pow 2 (by omega))

/-- Two-word extraction from the word image. -/
theorem extract_span (b M s off : Nat) (hoff : off < 64) (hgt : 64 < off + b)
    (hble : b ≤ 64) :
    (((M / 2 ^ (64 * s) % 2 ^ 64) >>> off) &&& (2 ^ (64 - off) - 1)) |||
      (((M / 2 ^ (64 * (s + 1)) % 2 ^ 64) &&& (2 ^ (b - (64 - off)) - 1)) <<< (64 - off)) =
      M / 2 ^ (64 * s + off) % 2 ^ b := by
  rw [Nat.shiftRight_eq_div_pow, Nat.and_pow_two_sub_one_eq_mod,
    Nat.and_pow_two_sub_one_eq_mod, Nat.shiftLeft_eq]
  rw [show (2 : Nat) ^ 64 = 2 ^ off * 2 ^ (64 - off) from by rw [← pow_add]; congr 1; omega]
  rw [mod_mul_div _ _ _ (pow_pos (by norm_num) _) (pow_pos (by norm_num) _),
    Nat.div_div_eq_div_mul, ← pow_add]
  rw [Nat.mod_mod_of_dvd _ (dvd_refl ((2 : Nat) ^ (64 - off)))]
  have hmm : M / 2 ^ (64 * (s + 1)) % (2 ^ off * 2 ^ (64 - off)) % 2 ^ (b - (64 - off)) =
      M / 2 ^ (64 * (s + 1)) % 2 ^ (b - (64 - off)) :=
    Nat.mod_mod_of_dvd _ (by
      rw [← pow_add]
      exact pow_dvd_pow 2 (by omega))
  rw [hmm]
  have hlow : M / 2 ^ (64 * s + off) % 2 ^ (64 - off) < 2 ^ (64 - off) :=
    Nat.mod_lt _ (pow_pos (by norm_num) _)
  rw [lor_eq_add_of_lt _ _ _ hlow]
  have hhigh : M / 2 ^ (64 * (s + 1)) = M / 2 ^ (64 * s + off) / 2 ^ (64 - off) := by
    calc M / 2 ^ (64 * (s + 1)) = M / 2 ^ (64 * s + off + (64 - off)) := by
          rw [show 64 * (s + 1) = 64 * s + off + (64 - off) from by omega]
      _ = M / (2 ^ (64 * s + off) * 2 ^ (64 - off)) := by rw [pow_add]
      _ = M / 2 ^ (64 * s + off) / 2 ^ (64 - off) := (Nat.div_div_eq_div_mul _ _ _).symm
  rw [hhigh]
  rw [show (2 : Nat) ^ b = 2 ^ (64 - off) * 2 ^ (b - (64 - off)) from by
    rw [← pow_add]; congr 1; omega]
  rw [mod_mul_decomp _ _ _ (pow_pos (by norm_num) _) (pow_pos (by norm_num) _)]
  ring

theorem getD_range_map (L : Nat) (w : Nat → Nat) (j : Nat) (h : j < L) :
    ((List.range L).map w).getD j 0 = w j := by
  rw [List.getD_eq_getElem?_getD, List.getElem?_map, List.getElem?_range h]
  rfl

theorem range_map_getD (l : List Nat) :
    (List.range l.length).map (fun k => l.getD k 0) = l := by
  induction l with
  | nil => rfl
  | cons v t ih =>
    rw [List.length_cons, List.range_succ_eq_map, List.map_cons, List.map_map]
    have hcomp : ((fun k => (v :: t).getD k 0) ∘ Nat.succ) = fun k => t.getD k 0 := by
      funext k
      rfl
    rw [hcomp, ih]
    rfl


/-- `Region::calculate_bits_per_block`:
`max((palette_size as f64).log2().ceil() as usize, 2)`. -/
def Region.calculate_bits_per_block (r : Region) : Nat :=
  Max.max (Nat.clog 2 r.palette.length) 2

/-- Body of `create_packed_block_states` with the bit width as an explicit
parameter (`Nat.clog` does not reduce definitionally, so concrete instances
are evaluated after rewriting the width). -/
def Region.create_packed_with (r : Region) (b : Nat) : List Nat :=
  (List.range ((r.volume * b + 63) / 64)).map
    (r.get_bounding_box.boxCoords.enum.foldl
      (fun acc p => packStep b acc
        (p.1, ((r.get_block_index p.2.1 p.2.2.1 p.2.2.2).getD 0) &&& (2 ^ b - 1)))
      fun _ => 0)

/-- `Region::create_packed_block_states`. -/
def Region.create_packed_block_states (r : Region) : List Nat :=
  r.create_packed_with r.calculate_bits_per_block

/-- Body of `unpack_block_states` with the bit width as an explicit
parameter. -/
def Region.unpack_with (r : Region) (b : Nat) (packed_states : List Nat) : List Nat :=
  (List.range r.volume).map fun index =>
    if index * b % 64 + b ≤ 64 then
      ((packed_states.getD (index * b / 64) 0) >>> (index * b % 64)) &&& (2 ^ b - 1)
    else
      (((packed_states.getD (index * b / 64) 0) >>> (index * b % 64)) &&&
        (2 ^ (64 - index * b % 64) - 1)) |||
      (((packed_states.getD (index * b / 64 + 1) 0) &&&
        (2 ^ (b - (64 - index * b % 64)) - 1)) <<< (64 - index * b % 64))

/-- `Region::unpack_block_states`. -/
def Region.unpack_block_states (r : Region) (packed_states : List Nat) : List Nat :=
  r.unpack_with r.calculate_bits_per_block packed_states

/-- The palette indices of the region's positions in canonical x-fastest /
z / y-slowest bounding-box order, absent chunks contributing 0. -/
def blockIndexList (r : Region) : List Nat :=
  r.get_bounding_box.boxCoords.map fun q => (r.get_block_index q.1 q.2.1 q.2.2).getD 0

/-- Packing a value list obtained by mapping over coordinates. -/
theorem pack_fold_region (b : Nat) (hb1 : 1 ≤ b) (hb64 : b ≤ 64)
    (F : (Int × Int × Int) → Nat) :
    ∀ (l : List (Int × Int × Int)) (k : Nat) (acc : Nat → Nat) (N : Nat),
      (∀ q ∈ l, F q < 2 ^ b) → N < 2 ^ (k * b) →
      (∀ j, acc j = N / 2 ^ (64 * j) % 2 ^ 64) →
      ∀ j, ((l.enumFrom k).foldl (fun a p => packStep b a (p.1, F p.2)) acc) j =
        (N + 2 ^ (k * b) * bigN b (l.map F)) / 2 ^ (64 * j) % 2 ^ 64 := by
  intro l
  induction l with
  | nil =>
    intro k acc N _ _ hacc j
    simp only [List.enumFrom_nil, List.foldl_nil, List.map_nil, bigN, Nat.mul_zero,
      Nat.add_zero]
    exact hacc j
  | cons q t ih =>
    intro k acc N hv hN hacc j
    rw [List.enumFrom_cons, List.foldl_cons]
    have hvv : F q < 2 ^ b := hv q (List.mem_cons_self _ _)
    have hN2 : N + F q * 2 ^ (k * b) < 2 ^ ((k + 1) * b) := by
      have h2 : N + F q * 2 ^ (k * b) < 2 ^ (k * b) * (F q + 1) := by
        have h3 : 2 ^ (k * b) * (F q + 1) = F q * 2 ^ (k * b) + 2 ^ (k * b) := by ring
        omega
      have h4 : 2 ^ (k * b) * (F q + 1) ≤ 2 ^ (k * b) * 2 ^ b :=
        Nat.mul_le_mul_left _ (by omega)
      have h5 : (2 : Nat) ^ (k * b) * 2 ^ b = 2 ^ ((k + 1) * b) := by
        rw [← pow_add]
        congr 1
        ring
      omega
    have hstep := packStep_spec b hb1 hb64 k (F q) hvv acc N hN hacc
    have hrec := ih (k + 1) (packStep b acc (k, F q)) (N + F q * 2 ^ (k * b))
      (fun w hw => hv w (List.mem_cons_of_mem _ hw)) hN2 hstep j
    rw [hrec]
    congr 2
    show N + F q * 2 ^ (k * b) + 2 ^ ((k + 1) * b) * bigN b (t.map F) =
      N + 2 ^ (k * b) * bigN b (F q :: t.map F)
    show N + F q * 2 ^ (k * b) + 2 ^ ((k + 1) * b) * bigN b (t.map F) =
      N + 2 ^ (k * b) * (F q + 2 ^ b * bigN b (t.map F))
    rw [show (k + 1) * b = k * b + b from by ring, pow_add]
    ring

theorem boxCoords_length (B : BoundingBox) :
    B.boxCoords.length = B.get_dimensions.2.1.toNat *
      (B.get_dimensions.2.2.toNat * B.get_dimensions.1.toNat) := by
  unfold BoundingBox.boxCoords
  rw [List.length_flatMap]
  have h1 : (List.range B.get_dimensions.2.1.toNat).map
      (List.length ∘ fun dy : Nat =>
        (List.range B.get_dimensions.2.2.toNat).flatMap fun dz : Nat =>
          (List.range B.get_dimensions.1.toNat).map fun dx : Nat =>
            (B.min.1 + (dx : Int), B.min.2.1 + (dy : Int), B.min.2.2 + (dz : Int))) =
      List.replicate B.get_dimensions.2.1.toNat
        (B.get_dimensions.2.2.toNat * B.get_dimensions.1.toNat) := by
    have hc : ∀ dy ∈ List.range B.get_dimensions.2.1.toNat,
        (List.length ∘ fun dy : Nat =>
          (List.range B.get_dimensions.2.2.toNat).flatMap fun dz : Nat =>
            (List.range B.get_dimensions.1.toNat).map fun dx : Nat =>
              (B.min.1 + (dx : Int), B.min.2.1 + (dy : Int), B.min.2.2 + (dz : Int))) dy =
        (fun _ : Nat =>
          B.get_dimensions.2.2.toNat * B.get_dimensions.1.toNat) dy := by
      intro dy _
      show ((List.range B.get_dimensions.2.2.toNat).flatMap fun dz : Nat =>
        (List.range B.get_dimensions.1.toNat).map fun dx : Nat =>
          (B.min.1 + (dx : Int), B.min.2.1 + (dy : Int), B.min.2.2 + (dz : Int))).length =
        B.get_dimensions.2.2.toNat * B.get_dimensions.1.toNat
      rw [List.length_flatMap]
      have h2 : (List.range B.get_dimensions.2.2.toNat).map
          (List.length ∘ fun dz : Nat =>
            (List.range B.get_dimensions.1.toNat).map fun dx : Nat =>
              (B.min.1 + (dx : Int), B.min.2.1 + (dy : Int), B.min.2.2 + (dz : Int))) =
          List.replicate B.get_dimensions.2.2.toNat B.get_dimensions.1.toNat := by
        have hc2 : ∀ dz ∈ List.range B.get_dimensions.2.2.toNat,
            (List.length ∘ fun dz : Nat =>
              (List.range B.get_dimensions.1.toNat).map fun dx : Nat =>
                (B.min.1 + (dx : Int), B.min.2.1 + (dy : Int),
                  B.min.2.2 + (dz : Int))) dz =
            (fun _ : Nat => B.get_dimensions.1.toNat) dz := by
          intro dz _
          show ((List.range B.get_dimensions.1.toNat).map fun dx : Nat =>
            (B.min.1 + (dx : Int), B.min.2.1 + (dy : Int),
              B.min.2.2 + (dz : Int))).length = B.get_dimensions.1.toNat
          rw [List.length_map, List.length_range]
        rw [List.map_congr_left hc2, List.map_const', List.length_range]
      rw [h2, List.sum_const_nat]
    rw [List.map_congr_left hc, List.map_const', List.length_range]
  rw [h1, List.sum_const_nat]

theorem volume_eq_boxCoords_length (r : Region) (h1 : 1 ≤ r.size.1)
    (h2 : 1 ≤ r.size.2.1) (h3 : 1 ≤ r.size.2.2) :
    r.get_bounding_box.boxCoords.length = r.volume := by
  rw [boxCoords_length, bbox_of_normalized r h1 h2 h3]
  have hd1 : (BoundingBox.new r.position (r.position.1 + r.size.1 - 1,
      r.position.2.1 + r.size.2.1 - 1,
      r.position.2.2 + r.size.2.2 - 1)).get_dimensions.1 = r.size.1 := by
    show r.position.1 + r.size.1 - 1 - r.position.1 + 1 = r.size.1
    omega
  have hd2 : (BoundingBox.new r.position (r.position.1 + r.size.1 - 1,
      r.position.2.1 + r.size.2.1 - 1,
      r.position.2.2 + r.size.2.2 - 1)).get_dimensions.2.1 = r.size.2.1 := by
    show r.position.2.1 + r.size.2.1 - 1 - r.position.2.1 + 1 = r.size.2.1
    omega
  have hd3 : (BoundingBox.new r.position (r.position.1 + r.size.1 - 1,
      r.position.2.1 + r.size.2.1 - 1,
      r.position.2.2 + r.size.2.2 - 1)).get_dimensions.2.2 = r.size.2.2 := by
    show r.position.2.2 + r.size.2.2 - 1 - r.position.2.2 + 1 = r.size.2.2
    omega
  rw [hd1, hd2, hd3]
  unfold Region.volume
  ring


/-- Core roundtrip: unpacking the packed words yields the masked index
sequence. -/
theorem pack_unpack_main (r : Region) (hs1 : 1 ≤ r.size.1) (hs2 : 1 ≤ r.size.2.1)
    (hs3 : 1 ≤ r.size.2.2) (hple : r.palette.length ≤ 2 ^ 64) :
    r.unpack_block_states r.create_packed_block_states =
      r.get_bounding_box.boxCoords.map
        (fun q => ((r.get_block_index q.1 q.2.1 q.2.2).getD 0) &&&
          (2 ^ r.calculate_bits_per_block - 1)) := by
  have hb1 : 1 ≤ r.calculate_bits_per_block :=
    le_trans (by norm_num) (le_max_right (Nat.clog 2 r.palette.length) 2)
  have hb64 : r.calculate_bits_per_block ≤ 64 := by
    refine max_le ?_ (by norm_num)
    calc Nat.clog 2 r.palette.length ≤ Nat.clog 2 (2 ^ 64) :=
        Nat.clog_mono_right 2 hple
      _ = 64 := Nat.clog_pow 2 64 (by norm_num)
  set b := r.calculate_bits_per_block with hbdef
  set vs := r.get_bounding_box.boxCoords.map
    (fun q => ((r.get_block_index q.1 q.2.1 q.2.2).getD 0) &&& (2 ^ b - 1)) with hvs
  have hv : ∀ v ∈ vs, v < 2 ^ b := by
    intro v hv2
    obtain ⟨q, _, he⟩ := List.mem_map.mp hv2
    rw [← he, Nat.and_pow_two_sub_one_eq_mod]
    exact Nat.mod_lt _ (pow_pos (by norm_num) b)
  have hn : r.volume = vs.length := by
    rw [hvs, List.length_map, volume_eq_boxCoords_length r hs1 hs2 hs3]
  have hW : ∀ j, (r.get_bounding_box.boxCoords.enum.foldl
      (fun acc p => packStep b acc
        (p.1, ((r.get_block_index p.2.1 p.2.2.1 p.2.2.2).getD 0) &&& (2 ^ b - 1)))
      fun _ => 0) j = bigN b vs / 2 ^ (64 * j) % 2 ^ 64 := by
    intro j
    have h0 := pack_fold_region b hb1 hb64
      (fun q => ((r.get_block_index q.1 q.2.1 q.2.2).getD 0) &&& (2 ^ b - 1))
      r.get_bounding_box.boxCoords 0 (fun _ => 0) 0
      (fun q _ => by
        show ((r.get_block_index q.1 q.2.1 q.2.2).getD 0) &&& (2 ^ b - 1) < 2 ^ b
        rw [Nat.and_pow_two_sub_one_eq_mod]
        exact Nat.mod_lt _ (pow_pos (by norm_num) b))
      (by norm_num)
      (fun j2 => by norm_num) j
    rw [Nat.zero_mul, pow_zero, Nat.one_mul, Nat.zero_add] at h0
    exact h0
  have hpacked : r.create_packed_block_states =
      (List.range ((r.volume * b + 63) / 64)).map
        (r.get_bounding_box.boxCoords.enum.foldl
          (fun acc p => packStep b acc
            (p.1, ((r.get_block_index p.2.1 p.2.2.1 p.2.2.2).getD 0) &&& (2 ^ b - 1)))
          fun _ => 0) := rfl
  show (List.range r.volume).map _ = vs
  refine Eq.trans ?_ (range_map_getD vs)
  rw [hn]
  refine List.map_congr_left ?_
  intro k hk
  rw [List.mem_range] at hk
  have hso : 64 * (k * b / 64) + k * b % 64 = k * b := Nat.div_add_mod (k * b) 64
  have hofflt : k * b % 64 < 64 := Nat.mod_lt _ (by norm_num)
  have hkb1 : (k + 1) * b ≤ vs.length * b := Nat.mul_le_mul_right b hk
  have hkb : k * b + b ≤ vs.length * b := by
    have h6 : (k + 1) * b = k * b + b := by ring
    omega
  have hEL : (r.volume * b + 63) / 64 = (vs.length * b + 63) / 64 := by rw [hn]
  have hdig := bigN_digit b vs hv k hk
  show (if k * b % 64 + b ≤ 64 then
      ((r.create_packed_block_states.getD (k * b / 64) 0) >>> (k * b % 64)) &&&
        (2 ^ b - 1)
    else
      (((r.create_packed_block_states.getD (k * b / 64) 0) >>> (k * b % 64)) &&&
        (2 ^ (64 - k * b % 64) - 1)) |||
      (((r.create_packed_block_states.getD (k * b / 64 + 1) 0) &&&
        (2 ^ (b - (64 - k * b % 64)) - 1)) <<< (64 - k * b % 64))) = vs.getD k 0
  split
  · rename_i hle
    have hs_lt : k * b / 64 < (r.volume * b + 63) / 64 := by
      rw [hEL]
      omega
    rw [hpacked, getD_range_map _ _ _ hs_lt, hW]
    rw [extract_single b (bigN b vs) (k * b / 64) (k * b % 64) hofflt (by omega)]
    rw [hso]
    exact hdig
  · rename_i hgt
    have hs_lt : k * b / 64 < (r.volume * b + 63) / 64 := by
      rw [hEL]
      omega
    have hs1_lt : k * b / 64 + 1 < (r.volume * b + 63) / 64 := by
      rw [hEL]
      omega
    rw [hpacked, getD_range_map _ _ _ hs_lt, getD_range_map _ _ _ hs1_lt, hW, hW]
    rw [extract_span b (bigN b vs) (k * b / 64) (k * b % 64) hofflt (by omega) hb64]
    rw [hso]
    exact hdig


/-- C3 (amended): for a normalized region with palette length `1 ≤ p ≤ 2^64`
whose stored palette indices are all below `2^bits_per_block` (true in
particular whenever they are below `p`), `unpack_block_states` applied to
`create_packed_block_states` returns exactly the palette indices of the
region's positions in canonical x-fastest/z/y-slowest bounding-box order
(absent chunks contributing 0), and the packed output has exactly
`ceil(volume * bits_per_block / 64)` entries with
`bits_per_block = max(2, ceil(log2 p))`.  Without the range hypothesis the
claim's "any stored contents" version is false: packing masks each stored
index with `2^bits_per_block - 1`, so an out-of-range index does not survive
the roundtrip (see the counterexample). -/
theorem C3_packed_roundtrip (r : Region)
    (hs1 : 1 ≤ r.size.1) (hs2 : 1 ≤ r.size.2.1) (hs3 : 1 ≤ r.size.2.2)
    (hp1 : 1 ≤ r.palette.length) (hple : r.palette.length ≤ 2 ^ 64)
    (hstore : ∀ q ∈ r.get_bounding_box.boxCoords,
      (r.get_block_index q.1 q.2.1 q.2.2).getD 0 < 2 ^ r.calculate_bits_per_block) :
    r.unpack_block_states r.create_packed_block_states = blockIndexList r ∧
      r.create_packed_block_states.length =
        (r.volume * r.calculate_bits_per_block + 63) / 64 := by
  constructor
  · rw [pack_unpack_main r hs1 hs2 hs3 hple]
    unfold blockIndexList
    refine List.map_congr_left ?_
    intro q hq
    show ((r.get_block_index q.1 q.2.1 q.2.2).getD 0) &&&
      (2 ^ r.calculate_bits_per_block - 1) = (r.get_block_index q.1 q.2.1 q.2.2).getD 0
    rw [Nat.and_pow_two_sub_one_eq_mod]
    exact Nat.mod_eq_of_lt (hstore q hq)
  · show ((List.range ((r.volume * r.calculate_bits_per_block + 63) / 64)).map _).length = _
    rw [List.length_map, List.length_range]

theorem clog_two_two : Nat.clog 2 2 = 1 := by
  have h := Nat.clog_pow 2 1 (by norm_num)
  rw [pow_one] at h
  exact h

theorem clog_two_one : Nat.clog 2 1 = 0 := by
  have h := Nat.clog_pow 2 0 (by norm_num)
  rw [pow_zero] at h
  exact h

theorem c3w_bpb : ((Region.new "P" (0, 0, 0) (2, 1, 1)).set_block 0 0 0
    stone).calculate_bits_per_block = 2 := by
  show Max.max (Nat.clog 2 ((Region.new "P" (0, 0, 0) (2, 1, 1)).set_block 0 0 0
    stone).palette.length) 2 = 2
  rw [show ((Region.new "P" (0, 0, 0) (2, 1, 1)).set_block 0 0 0
    stone).palette.length = 2 from by decide, clog_two_two]
  decide

/-- Concrete instance of `C3_packed_roundtrip`: a 2x1x1 region holding one
stone block. -/
theorem C3_witness :
    (1 ≤ ((Region.new "P" (0, 0, 0) (2, 1, 1)).set_block 0 0 0 stone).size.1 ∧
      1 ≤ ((Region.new "P" (0, 0, 0) (2, 1, 1)).set_block 0 0 0 stone).palette.length ∧
      (∀ q ∈ ((Region.new "P" (0, 0, 0) (2, 1, 1)).set_block 0 0 0
          stone).get_bounding_box.boxCoords,
        (((Region.new "P" (0, 0, 0) (2, 1, 1)).set_block 0 0 0
          stone).get_block_index q.1 q.2.1 q.2.2).getD 0 <
          2 ^ ((Region.new "P" (0, 0, 0) (2, 1, 1)).set_block 0 0 0
            stone).calculate_bits_per_block)) ∧
    ((Region.new "P" (0, 0, 0) (2, 1, 1)).set_block 0 0 0 stone).unpack_block_states
        ((Region.new "P" (0, 0, 0) (2, 1, 1)).set_block 0 0 0
          stone).create_packed_block_states =
      blockIndexList ((Region.new "P" (0, 0, 0) (2, 1, 1)).set_block 0 0 0 stone) ∧
    ((Region.new "P" (0, 0, 0) (2, 1, 1)).set_block 0 0 0
        stone).create_packed_block_states.length =
      (((Region.new "P" (0, 0, 0) (2, 1, 1)).set_block 0 0 0 stone).volume *
        ((Region.new "P" (0, 0, 0) (2, 1, 1)).set_block 0 0 0
          stone).calculate_bits_per_block + 63) / 64 :=
  ⟨⟨by decide, by decide, by rw [c3w_bpb]; decide⟩,
    (C3_packed_roundtrip ((Region.new "P" (0, 0, 0) (2, 1, 1)).set_block 0 0 0 stone)
      (by decide) (by decide) (by decide) (by decide)
      (by rw [show ((Region.new "P" (0, 0, 0) (2, 1, 1)).set_block 0 0 0
          stone).palette.length = 2 from by decide]; norm_num)
      (by rw [c3w_bpb]; decide)).1,
    (C3_packed_roundtrip ((Region.new "P" (0, 0, 0) (2, 1, 1)).set_block 0 0 0 stone)
      (by decide) (by decide) (by decide) (by decide)
      (by rw [show ((Region.new "P" (0, 0, 0) (2, 1, 1)).set_block 0 0 0
          stone).palette.length = 2 from by decide]; norm_num)
      (by rw [c3w_bpb]; decide)).2⟩

/-- A 1x1x1 region with palette `[air]` whose single stored index 4 is out of
range for `bits_per_block = 2`. -/
def spillRegion : Region where
  name := "X"
  position := (0, 0, 0)
  size := (1, 1, 1)
  chunks := [((0, 0, 0), Function.update zeroChunk 0 4)]
  palette := [BlockState.air]
  palette_lookup := [(BlockState.air, 0)]

/-- C3 counterexample: with palette length 1 (`bits_per_block = 2`) and a
stored index 4, packing masks the index to `4 &&& 3 = 0`, so the roundtrip
returns 0 instead of the stored palette index 4 — the claim's "any stored
contents" quantification fails. -/
theorem spill_bpb : spillRegion.calculate_bits_per_block = 2 := by
  show Max.max (Nat.clog 2 ([BlockState.air] : List BlockState).length) 2 = 2
  rw [List.length_singleton, clog_two_one]
  decide

theorem C3_counterexample :
    spillRegion.unpack_block_states spillRegion.create_packed_block_states = [0] ∧
    blockIndexList spillRegion = [4] ∧ ([0] : List Nat) ≠ [4] := by
  refine ⟨?_, by decide, by decide⟩
  show Region.unpack_with spillRegion spillRegion.calculate_bits_per_block
    (spillRegion.create_packed_with spillRegion.calculate_bits_per_block) = [0]
  rw [spill_bpb]
  decide

end Nucleation
